import Mathlib

/-!
Verification development for the greennet cooperative scheduler
(`greennet/hub.py`, `greennet/queue.py`, `greennet/trigger.py`).

The embedding below translates the relevant source functions into Lean:

* `Wait` records (`hub.py`, class `Wait` and its subclasses `Sleep`,
  `FDWait`, and `queue.py`'s `PopWait` / `AppendWait`).  A `Wait` carries
  its target task, an optional absolute deadline (`expires`) and its
  variant.  Each record additionally carries a `wid` field standing for
  Python object identity, which lets the model distinguish "the same
  record" from "a record that compares equal": the source's
  `Wait.__cmp__` compares only the `expires` fields, so Python `==`,
  `in`, `list.remove` and `deque.remove` on Wait records all look at
  `expires` alone.  `pyCmpo`/`pyEq` below reproduce Python 2's `cmp` on
  the optional deadlines (`None` sorts below every number and is equal
  only to `None`).

* The timer heap (`Hub.timeouts`, manipulated through `heapq` plus
  `Hub._add_timeout` / `Hub._remove_timeout`).  The heap is modelled as
  a list kept sorted by deadline: `heapq` guarantees that `heap[0]` is a
  minimal element and `heappop` removes it, and since `_add_timeout`
  asserts that no record comparing equal (same deadline) is already
  present, the pop order observable by the rest of the program is
  exactly the sorted order modelled here.  `list.remove` (used by
  `_remove_timeout` and by `deque.remove` inside `QueueWait.timeout`)
  removes the first element comparing equal; `heapify` preserves the
  sorted-list model.

Deadlines (`time.time()` values) are modelled as integers: every claim
below depends only on how times compare and add, never on divisibility
or density, so any linearly ordered additive group models the float
timestamps faithfully for these properties.
-/

/-- Variant of a Wait record: `FDWait` (I/O readiness), `Sleep`
(timer-only resume), and `queue.py`'s `PopWait` (an appender waiting for
a pop, parked in `Queue._pop_waits`) and `AppendWait` (a popper waiting
for an append, parked in `Queue._append_waits`). -/
inductive WKind : Type where
  | fdwait (fd : Nat) (mask : Nat)
  | sleepw
  | popwait
  | appendwait
  deriving DecidableEq, Repr

/-- A Wait record (`hub.py` class `Wait`): target task, optional absolute
deadline, variant.  `wid` models Python object identity. -/
structure Wait : Type where
  wid : Nat
  task : Nat
  expires : Option ℤ
  kind : WKind
  deriving DecidableEq, Repr

/-- Python 2 `cmp` on optional deadlines: `None` is less than every
number and equal to `None`.  `Wait.__cmp__` is `cmp(self.expires,
other.expires)`. -/
def pyCmpo : Option ℤ → Option ℤ → Ordering
  | none, none => .eq
  | none, some _ => .lt
  | some _, none => .gt
  | some a, some b => if a < b then .lt else if a = b then .eq else .gt

/-- Python `==` on Wait records: via `__cmp__`, true iff the deadlines
compare equal.  This is the equality used by `in`, `list.remove` and
`deque.remove` on Wait records. -/
def pyEq (a b : Wait) : Bool :=
  pyCmpo a.expires b.expires == .eq

/-- Python `<=` on Wait records (heap ordering). -/
def pyLe (a b : Wait) : Bool :=
  pyCmpo a.expires b.expires != .gt

/-- Deadline of a heap entry.  Every caller of `_add_timeout` sets a
deadline (`poll` only registers a timeout when one was requested;
`sleep`/`call_later` always compute one), so heap entries always carry
`some`; the default is never exercised on states the program builds. -/
def eVal (w : Wait) : ℤ :=
  w.expires.getD 0

/-- Stable sorted insert: the sorted-list model of `heapq.heappush`. -/
def heapPush : List Wait → Wait → List Wait
  | [], w => [w]
  | v :: rest, w =>
      if pyLe v w then v :: heapPush rest w else w :: v :: rest

/-- Hub._add_timeout: `assert item not in self.timeouts;
heapq.heappush(self.timeouts, item)`.  Python `in` tests `==`, i.e.
deadline equality; a failed assertion (AssertionError) is `none`. -/
def addTimeout (heap : List Wait) (w : Wait) : Option (List Wait) :=
  if heap.any (fun v => pyEq v w) then none else some (heapPush heap w)

/-- Removal of the first element comparing Python-equal (equal deadline):
this is `list.remove` as used by `Hub._remove_timeout` (followed by
`heapify`, the identity on the sorted-list model) and `deque.remove` as
used by `QueueWait.timeout`.  `none` models the ValueError raised when
no element compares equal. -/
def removeFirstPyEq : List Wait → Wait → Option (List Wait)
  | [], _ => none
  | v :: rest, w =>
      if pyEq v w then some rest
      else (removeFirstPyEq rest w).map (fun l => v :: l)

/-- Removal from the `fdwaits` set (`set.remove`): Wait records inherit
`object.__hash__` (identity) in Python 2, so set membership and removal
are by record identity, modelled by `wid`. -/
def removeById (l : List Wait) (w : Wait) : List Wait :=
  l.filter (fun v => v.wid ≠ w.wid)

/-!
The Hub and its event loop (`hub.py`, class `Hub`).

The model instantiates one Hub together with one `Queue` built on it
(`queue.py`) and a single user task: the greenlet that created the Hub
(the parent of the hub greenlet).  This is the configuration exercised
by the repository's own queue tests, and it is all that is needed for
the development below.  Run-queue entries are either ordinary scheduled tasks or the
`greenlet(wait.timeout)` runners created by `Hub._handle_timeouts`.
With a single user task, switching to a task or throwing `Timeout` into
it transfers control out of the hub greenlet, so `runTasks` returns a
`RunRes` describing where control went.
-/

/-- An entry of the Hub's run queue (`Hub.tasks`): an ordinary scheduled
task (`Hub.schedule`) or the `greenlet(wait.timeout)` runner scheduled
by `Hub._handle_timeouts`. -/
inductive Runner : Type where
  | timeoutRunner (w : Wait)
  | taskResume (t : Nat)
  deriving DecidableEq, Repr

/-- The Queue entity (`queue.py`, class `Queue`): the items deque, the
optional maximum length, and the two wait deques.  Lists are deques with
the head at the left end. -/
structure QueueRec : Type where
  queue : List Nat
  maxlen : Option Nat
  append_waits : List Wait
  pop_waits : List Wait
  deriving DecidableEq, Repr

/-- Global state: the Hub's three structures (`fdwaits`, `timeouts`,
`tasks`), the single Queue, the wall clock (`time.time()`), and a
counter for fresh record identities. -/
structure St : Type where
  fdwaits : List Wait
  timeouts : List Wait
  tasks : List Runner
  q : QueueRec
  now : ℤ
  nextId : Nat
  deriving DecidableEq, Repr

/-- Where control went when the hub greenlet stopped running, or the
loop's own outcome: `ok` is `Hub._run` returning (loop guard false);
`thrownTimeout w` is `wait.timeout()` raising `Timeout` in the user
task; `resumedMain` is a switch to the user task; `err` models a Python
runtime error (e.g. ValueError from a failed `remove`). -/
inductive RunRes : Type where
  | ok (st : St)
  | thrownTimeout (w : Wait) (st : St)
  | resumedMain (st : St)
  | err
  | fuelOut
  deriving DecidableEq, Repr

/-- Hub._run_tasks: pop run-queue entries FIFO and switch to each.  A
`timeoutRunner` executes `wait.timeout()`: `QueueWait.timeout` first
removes the record from its queue's wait deque (`deque.remove`, first
equal-deadline match; a missing element raises ValueError, modelled
`err`) and then calls `Wait.timeout`, which throws `Timeout` into the
task; `FDWait` uses `Wait.timeout` directly; `Sleep.timeout` switches to
the task instead. -/
def runTasks (st : St) : RunRes :=
  match st.tasks with
  | [] => .ok st
  | .taskResume _ :: rest => .resumedMain { st with tasks := rest }
  | .timeoutRunner w :: rest =>
    match w.kind with
    | .fdwait _ _ => .thrownTimeout w { st with tasks := rest }
    | .sleepw => .resumedMain { st with tasks := rest }
    | .popwait =>
      match removeFirstPyEq st.q.pop_waits w with
      | none => .err
      | some d =>
        .thrownTimeout w { st with tasks := rest, q := { st.q with pop_waits := d } }
    | .appendwait =>
      match removeFirstPyEq st.q.append_waits w with
      | none => .err
      | some d =>
        .thrownTimeout w { st with tasks := rest, q := { st.q with append_waits := d } }

/-- Result of Hub._handle_timeouts: either it returned to `_run` with the
seconds until the next deadline (`None` for an empty heap), or control
left the hub greenlet while firing a timeout. -/
inductive HTRes : Type where
  | ret (timeout : Option ℤ) (st : St)
  | exit (r : RunRes)
  deriving DecidableEq, Repr

/-- State after `_handle_timeouts` pops the expired root `w` (leaving
heap `rest`), removes an `FDWait` from the readiness set, and schedules
`greenlet(wait.timeout)` on the run queue. -/
def fireTimeoutStep (st : St) (w : Wait) (rest : List Wait) : St :=
  match w.kind with
  | .fdwait _ _ =>
    { st with
      timeouts := rest
      fdwaits := removeById st.fdwaits w
      tasks := st.tasks ++ [.timeoutRunner w] }
  | _ => { st with timeouts := rest, tasks := st.tasks ++ [.timeoutRunner w] }

/-- Hub._handle_timeouts: while the heap is nonempty look at the root;
if its deadline has passed, pop it, remove an `FDWait` from the
readiness set, schedule `greenlet(wait.timeout)` and drain the run
queue; otherwise return the remaining time.  An empty heap returns
`None`. -/
def handleTimeouts : Nat → St → HTRes
  | 0, _ => .exit .fuelOut
  | fuel+1, st =>
    match st.timeouts with
    | [] => .ret none st
    | w :: rest =>
      if eVal w - st.now ≤ 0 then
        match runTasks (fireTimeoutStep st w rest) with
        | .ok st3 => handleTimeouts fuel st3
        | r => .exit r
      else .ret (some (eVal w - st.now)) st

/-- Outcome of the readiness probe `select.select`: the ready waits plus
elapsed wall time, or a signal interruption (`EINTR`). -/
inductive SelRes : Type where
  | ready (ws : List Wait) (elapsed : ℤ)
  | eintr (elapsed : ℤ)

/-- Firing one Wait reported ready (body of the `for wait in
chain(r, w, e)` loop in Hub._run): remove it from the readiness set,
remove it from the timer heap when it carries a deadline
(`Hub._remove_timeout` = `list.remove` + `heapify`; a missing element
raises ValueError), and schedule its task. -/
def fireReady (st : St) (w : Wait) : Option St :=
  match w.expires with
  | none =>
    some { st with
      fdwaits := removeById st.fdwaits w
      tasks := st.tasks ++ [.taskResume w.task] }
  | some _ =>
    match removeFirstPyEq st.timeouts w with
    | none => none
    | some h =>
      some { st with
        fdwaits := removeById st.fdwaits w
        timeouts := h
        tasks := st.tasks ++ [.taskResume w.task] }

/-- Fire every ready Wait in order. -/
def fireReadyList : St → List Wait → Option St
  | st, [] => some st
  | st, w :: ws =>
    match fireReady st w with
    | none => none
    | some st1 => fireReadyList st1 ws

/-- Hub._run, the main event loop, parametrised by the readiness-probe
oracle `sel` (the kernel's choice of ready descriptors and of elapsed
time).  The `while True` retry on `EINTR` re-enters the loop with the
run queue already empty and the guard still true, which re-runs
`_handle_timeouts` with a refreshed timeout exactly as the source does,
so it is modelled by recursing on the outer loop. -/
def hubRun (sel : List Wait → Option ℤ → SelRes) : Nat → St → RunRes
  | 0, _ => .fuelOut
  | fuel+1, st =>
    if st.fdwaits = [] ∧ st.tasks = [] ∧ st.timeouts = [] then .ok st
    else
      match runTasks st with
      | .ok st1 =>
        if st1.fdwaits ≠ [] then
          match handleTimeouts (st1.timeouts.length + 1) st1 with
          | .exit r => r
          | .ret t st2 =>
            match sel st2.fdwaits t with
            | .eintr e => hubRun sel fuel { st2 with now := st2.now + e }
            | .ready ws e =>
              match fireReadyList { st2 with now := st2.now + e } ws with
              | none => .err
              | some st3 => hubRun sel fuel st3
        else if st1.timeouts ≠ [] then
          match handleTimeouts (st1.timeouts.length + 1) st1 with
          | .exit r => r
          | .ret none st2 => hubRun sel fuel st2
          | .ret (some t) st2 => hubRun sel fuel { st2 with now := st2.now + t }
        else hubRun sel fuel st1
      | r => r

/-!
Queue operations (`queue.py`).  Each operation is issued by the single
user task (the hub greenlet's parent).  An operation that parks a Wait
runs the hub (`self.hub.run()`); the hub either returns normally (loop
guard false, or the task was rescheduled and switched to), throws
`Timeout` into the task (which propagates out of the operation), or
hits a modelled runtime error.
-/

/-- Readiness oracle used when no descriptors are registered: queue
operations never add fd-waits, so the probe is never reached with a
nonempty readiness set in their runs. -/
def sel0 : List Wait → Option ℤ → SelRes := fun _ _ => .ready [] 0

/-- Queue.full(): False when unbounded, else `len(queue) >= maxlen`. -/
def Qfull (q : QueueRec) : Bool :=
  match q.maxlen with
  | none => false
  | some m => q.queue.length ≥ m

/-- Queue._popped: if an appender is parked in `_pop_waits`, pop the
first, cancel its deadline entry in the timer heap if it has one
(`Hub._remove_timeout`; ValueError is `none`), and schedule its task. -/
def Qpopped (st : St) : Option St :=
  match st.q.pop_waits with
  | [] => some st
  | w :: rest =>
    match w.expires with
    | none =>
      some { st with
        q := { st.q with pop_waits := rest }
        tasks := st.tasks ++ [.taskResume w.task] }
    | some _ =>
      match removeFirstPyEq st.timeouts w with
      | none => none
      | some h =>
        some { st with
          timeouts := h
          q := { st.q with pop_waits := rest }
          tasks := st.tasks ++ [.taskResume w.task] }

/-- Queue._appended: wake the first parked popper, symmetrically to
`Qpopped`. -/
def Qappended (st : St) : Option St :=
  match st.q.append_waits with
  | [] => some st
  | w :: rest =>
    match w.expires with
    | none =>
      some { st with
        q := { st.q with append_waits := rest }
        tasks := st.tasks ++ [.taskResume w.task] }
    | some _ =>
      match removeFirstPyEq st.timeouts w with
      | none => none
      | some h =>
        some { st with
          timeouts := h
          q := { st.q with append_waits := rest }
          tasks := st.tasks ++ [.taskResume w.task] }

/-- Queue._wait_for_append: build an `AppendWait` for the current task
(deadline `now + timeout` when a timeout was given), register the
deadline in the timer heap, park the record in `_append_waits`, and run
the hub.  `none` is the AssertionError from `_add_timeout`. -/
def waitForAppend (st : St) (tmo : Option ℤ) (fuel : Nat) : Option (Wait × RunRes) :=
  match tmo with
  | none =>
    some (⟨st.nextId, 0, none, .appendwait⟩,
      hubRun sel0 fuel { st with
        nextId := st.nextId + 1
        q := { st.q with
          append_waits := st.q.append_waits ++ [⟨st.nextId, 0, none, .appendwait⟩] } })
  | some t =>
    match addTimeout st.timeouts ⟨st.nextId, 0, some (st.now + t), .appendwait⟩ with
    | none => none
    | some h =>
      some (⟨st.nextId, 0, some (st.now + t), .appendwait⟩,
        hubRun sel0 fuel { st with
          nextId := st.nextId + 1
          timeouts := h
          q := { st.q with append_waits :=
            st.q.append_waits ++ [⟨st.nextId, 0, some (st.now + t), .appendwait⟩] } })

/-- Queue._wait_for_pop: symmetric to `waitForAppend`, parking a
`PopWait` in `_pop_waits`. -/
def waitForPop (st : St) (tmo : Option ℤ) (fuel : Nat) : Option (Wait × RunRes) :=
  match tmo with
  | none =>
    some (⟨st.nextId, 0, none, .popwait⟩,
      hubRun sel0 fuel { st with
        nextId := st.nextId + 1
        q := { st.q with
          pop_waits := st.q.pop_waits ++ [⟨st.nextId, 0, none, .popwait⟩] } })
  | some t =>
    match addTimeout st.timeouts ⟨st.nextId, 0, some (st.now + t), .popwait⟩ with
    | none => none
    | some h =>
      some (⟨st.nextId, 0, some (st.now + t), .popwait⟩,
        hubRun sel0 fuel { st with
          nextId := st.nextId + 1
          timeouts := h
          q := { st.q with pop_waits :=
            st.q.pop_waits ++ [⟨st.nextId, 0, some (st.now + t), .popwait⟩] } })

/-- Outcome of one queue operation as observed by the caller. -/
inductive OpRes : Type where
  | ok (st : St) (v : Option Nat)
  | timeout (st : St)
  | indexError (st : St)
  | err
  | fuelOut
  deriving DecidableEq, Repr

/-- Second half of Queue.pop, run once the task proceeds past the wait:
`item = self.queue.pop()` (rightmost; IndexError when empty), then
`self._popped()`, and the item is returned. -/
def QpopFinish (s : St) : OpRes :=
  match s.q.queue.getLast? with
  | none => .indexError s
  | some item =>
    match Qpopped { s with q := { s.q with queue := s.q.queue.dropLast } } with
    | none => .err
    | some s2 => .ok s2 (some item)

/-- Queue.pop: `if not self.queue: self._wait_for_append(timeout)`, then
the unconditional second half.  A `Timeout` thrown while parked
propagates out of the operation. -/
def Qpop (st : St) (tmo : Option ℤ) (fuel : Nat) : OpRes :=
  if st.q.queue = [] then
    match waitForAppend st tmo fuel with
    | none => .err
    | some (_, .ok s) => QpopFinish s
    | some (_, .resumedMain s) => QpopFinish s
    | some (_, .thrownTimeout _ s) => .timeout s
    | some (_, .err) => .err
    | some (_, .fuelOut) => .fuelOut
  else QpopFinish st

/-- Second half of Queue.popleft: pop at the left end. -/
def QpopleftFinish (s : St) : OpRes :=
  match s.q.queue with
  | [] => .indexError s
  | item :: rest =>
    match Qpopped { s with q := { s.q with queue := rest } } with
    | none => .err
    | some s2 => .ok s2 (some item)

/-- Queue.popleft: like `Qpop` at the left end of the deque. -/
def Qpopleft (st : St) (tmo : Option ℤ) (fuel : Nat) : OpRes :=
  if st.q.queue = [] then
    match waitForAppend st tmo fuel with
    | none => .err
    | some (_, .ok s) => QpopleftFinish s
    | some (_, .resumedMain s) => QpopleftFinish s
    | some (_, .thrownTimeout _ s) => .timeout s
    | some (_, .err) => .err
    | some (_, .fuelOut) => .fuelOut
  else QpopleftFinish st

/-- Second half of Queue.append: `self.queue.append(item)` performed
unconditionally once the task proceeds past the wait, then
`self._appended()`. -/
def QappendFinish (v : Nat) (s : St) : OpRes :=
  match Qappended { s with q := { s.q with queue := s.q.queue ++ [v] } } with
  | none => .err
  | some s2 => .ok s2 none

/-- Queue.append: `if self.full(): self._wait_for_pop(timeout)`, then
the unconditional second half. -/
def Qappend (st : St) (v : Nat) (tmo : Option ℤ) (fuel : Nat) : OpRes :=
  if Qfull st.q then
    match waitForPop st tmo fuel with
    | none => .err
    | some (_, .ok s) => QappendFinish v s
    | some (_, .resumedMain s) => QappendFinish v s
    | some (_, .thrownTimeout _ s) => .timeout s
    | some (_, .err) => .err
    | some (_, .fuelOut) => .fuelOut
  else QappendFinish v st

/-- Second half of Queue.appendleft: append at the left end. -/
def QappendleftFinish (v : Nat) (s : St) : OpRes :=
  match Qappended { s with q := { s.q with queue := v :: s.q.queue } } with
  | none => .err
  | some s2 => .ok s2 none

/-- Queue.appendleft: like `Qappend` at the left end of the deque. -/
def Qappendleft (st : St) (v : Nat) (tmo : Option ℤ) (fuel : Nat) : OpRes :=
  if Qfull st.q then
    match waitForPop st tmo fuel with
    | none => .err
    | some (_, .ok s) => QappendleftFinish v s
    | some (_, .resumedMain s) => QappendleftFinish v s
    | some (_, .thrownTimeout _ s) => .timeout s
    | some (_, .err) => .err
    | some (_, .fuelOut) => .fuelOut
  else QappendleftFinish v st

/-- Queue.clear: `self.queue.clear(); self._popped()`. -/
def Qclear (st : St) : Option St :=
  Qpopped { st with q := { st.q with queue := [] } }

/-- One queue operation of a user program. -/
inductive Cmd : Type where
  | append (v : Nat) (tmo : Option ℤ)
  | appendleft (v : Nat) (tmo : Option ℤ)
  | pop (tmo : Option ℤ)
  | popleft (tmo : Option ℤ)
  | clear
  deriving DecidableEq, Repr

/-- How a user program ended. -/
inductive ExecStat : Type where
  | alive
  | timedOut
  | indexErr
  | modelErr
  | fuelOut
  deriving DecidableEq, Repr

/-- Hub fuel per operation; ample for every state a single-task queue
program reaches (at most one timer entry and an empty run queue). -/
def opFuel : Nat := 9

/-- Dispatch one command. -/
def stepCmd (c : Cmd) (st : St) : OpRes :=
  match c with
  | .append v tmo => Qappend st v tmo opFuel
  | .appendleft v tmo => Qappendleft st v tmo opFuel
  | .pop tmo => Qpop st tmo opFuel
  | .popleft tmo => Qpopleft st tmo opFuel
  | .clear =>
    match Qclear st with
    | none => .err
    | some s => .ok s none

/-- Run a program of queue operations issued by the single user task,
recording the observable queue length after each operation (the length
is observable to user code between operations and where an exception
aborts the program). -/
def runCmds : List Cmd → St → St × ExecStat × List Nat
  | [], st => (st, .alive, [])
  | c :: cs, st =>
    match stepCmd c st with
    | .ok s _ =>
      let r := runCmds cs s
      (r.1, r.2.1, s.q.queue.length :: r.2.2)
    | .timeout s => (s, .timedOut, [s.q.queue.length])
    | .indexError s => (s, .indexErr, [s.q.queue.length])
    | .err => (st, .modelErr, [])
    | .fuelOut => (st, .fuelOut, [])

/-- Fresh state: empty Hub, one fresh Queue with the given bound. -/
def st0 (k : Option Nat) : St :=
  ⟨[], [], [], ⟨[], k, [], []⟩, 0, 1⟩

/-!
Heap-trace semantics for the timer service: the projection of
`Hub._add_timeout`, `Hub._remove_timeout` and of `_handle_timeouts`'s
firing loop onto the timer heap.  A trace interleaves registrations
(`add w`, the body of `_add_timeout` with its assertion), cancellations
(`remove w`, the body of `_remove_timeout`, called when a registrant
leaves the heap without timer-firing: a ready `FDWait` in `_run`, or
the woken head waiter in `Queue._popped` / `Queue._appended`) and
firing passes (`fire now`: the `while` loop of `_handle_timeouts` pops
every entry whose deadline has reached the wall time and fires it; a
pass during which the clock advances is a sequence of `fire` events
with nondecreasing times).  Execution also enforces the ambient facts
the source guarantees: every registered Wait carries a deadline
(`expires = time.time() + timeout`) that is not in the past, record
identities are fresh — every call site of `_add_timeout` constructs a
fresh `Wait` object just before the call, so an identity never
registers twice; the ghost field `seen` records all identities ever
registered to state this — and the clock never runs backwards.  A
trace violating one of these, failing `_add_timeout`'s assertion, or
removing an absent record (`ValueError`), executes to `none`.
-/

/-- State of the timer service: the heap, the records fired so far in
firing order, the wall clock, and `seen`, the ghost list of the
identities of every record ever registered (each call site of
`_add_timeout` constructs a fresh `Wait` object just before the call,
so an identity never registers twice). -/
structure TState : Type where
  heap : List Wait
  fired : List Wait
  clock : ℤ
  seen : List Nat
  deriving DecidableEq, Repr

/-- One timer-service event. -/
inductive TEv : Type where
  | add (w : Wait)
  | remove (w : Wait)
  | fire (now : ℤ)
  deriving DecidableEq, Repr

/-- Initial timer-service state. -/
def tInit : TState := ⟨[], [], 0, []⟩

/-- One event: `add` checks the ambient guarantees and runs
`Hub._add_timeout`; `remove` runs `Hub._remove_timeout`
(`self.timeouts.remove(item)` removes the first match under
`Wait.__cmp__` and raises `ValueError` when none matches, modelled as
`none`; the `heapify` that follows is the identity on the sorted-list
model); `fire now` pops and fires every entry whose deadline is
`≤ now`, in heap order. -/
def traceStep (s : TState) : TEv → Option TState
  | .add w =>
    match w.expires with
    | none => none
    | some e =>
      if e < s.clock then none
      else if s.seen.any (fun i => i = w.wid) then none
      else (addTimeout s.heap w).map
        (fun hp => { s with heap := hp, seen := w.wid :: s.seen })
  | .remove w =>
    (removeFirstPyEq s.heap w).map (fun hp => { s with heap := hp })
  | .fire now =>
    if now < s.clock then none
    else
      some { s with
        heap := s.heap.dropWhile (fun w => eVal w ≤ now)
        fired := s.fired ++ s.heap.takeWhile (fun w => eVal w ≤ now)
        clock := now }

/-- Run a trace of timer-service events. -/
def traceExec : List TEv → TState → Option TState
  | [], s => some s
  | e :: tr, s => (traceStep s e).bind (traceExec tr)

/-!
Trigger (`trigger.py`, class `Trigger`).  `pull()` writes one byte to
the *trigger* descriptor of the pipe.  The pipe's behaviour is an
environment oracle: the list of outcomes of successive `os.write`
calls.
-/

/-- Linux errno values named by `trigger.py`. -/
def EINTR : Nat := 4

/-- Errno for a write to a full nonblocking pipe. -/
def EAGAIN : Nat := 11

/-- Errno for an operation on a closed descriptor. -/
def EBADF : Nat := 9

/-- Outcome of one `os.write(self._trigger, 'x')` call. -/
inductive WOut : Type where
  | success
  | error (e : Nat)
  deriving DecidableEq, Repr

/-- Result of `Trigger.pull()`: returned after writing the byte;
returned quietly without writing (EAGAIN, pipe full); raised
IOError(EBADF) because the Trigger is closed; re-raised an unexpected
I/O error; or never returned (the oracle list ran out while retrying). -/
inductive PullRes : Type where
  | wrote
  | quiet
  | ebadf
  | raised (e : Nat)
  | hung
  deriving DecidableEq, Repr

/-- The `while True` retry loop of `Trigger.pull`: `os.write`, `continue`
on EINTR, `return` on EAGAIN, re-raise any other error, `return` after
a successful write. -/
def pullLoop : List WOut → PullRes
  | [] => .hung
  | .success :: _ => .wrote
  | .error e :: rest =>
    if e = EINTR then pullLoop rest
    else if e = EAGAIN then .quiet
    else .raised e

/-- Trigger.pull: `IOError(EBADF)` when closed (before any write), else
the retry loop. -/
def pull (closed : Bool) (outs : List WOut) : PullRes :=
  if closed then .ebadf else pullLoop outs

/-- Number of `os.write` calls made by the retry loop. -/
def pullLoopAttempts : List WOut → Nat
  | [] => 0
  | .success :: _ => 1
  | .error e :: rest => if e = EINTR then 1 + pullLoopAttempts rest else 1

/-- Number of `os.write` calls `pull` makes: none at all when closed. -/
def pullAttempts (closed : Bool) (outs : List WOut) : Nat :=
  if closed then 0 else pullLoopAttempts outs

/-- Number of bytes actually written before `pull` returns. -/
def pullLoopBytes : List WOut → Nat
  | [] => 0
  | .success :: _ => 1
  | .error e :: rest => if e = EINTR then pullLoopBytes rest else 0

/-- Bytes written by `pull`. -/
def pullBytes (closed : Bool) (outs : List WOut) : Nat :=
  if closed then 0 else pullLoopBytes outs

/-!
Proof-support predicates.
-/

/-- The items deque is untouched in every continuation of a hub run:
no code path of `Hub._run`, `_run_tasks` or `_handle_timeouts` writes
`Queue.queue`. -/
def preservesQueue (l : List Nat) : RunRes → Prop
  | .ok s => s.q.queue = l
  | .thrownTimeout _ s => s.q.queue = l
  | .resumedMain s => s.q.queue = l
  | .err => True
  | .fuelOut => True

/-- Lift of `preservesQueue` to `_handle_timeouts` results. -/
def preservesQueueHT (l : List Nat) : HTRes → Prop
  | .ret _ s => s.q.queue = l
  | .exit r => preservesQueue l r

/-- A command whose append carries a timeout (the try-or-fail idiom the
repository's own tests use); pops and clears are unrestricted. -/
def appendsTimed : Cmd → Prop
  | .append _ tmo => tmo.isSome
  | .appendleft _ tmo => tmo.isSome
  | _ => True

/-- Invariant of single-task queue programs whose appends all carry
timeouts: the hub structures are idle, the wait deques empty, and the
queue within its bound. -/
def SInv (k : Nat) (st : St) : Prop :=
  st.fdwaits = [] ∧ st.tasks = [] ∧ st.timeouts = [] ∧
  st.q.append_waits = [] ∧ st.q.pop_waits = [] ∧
  st.q.maxlen = some k ∧ st.q.queue.length ≤ k

/-- Invariant of timer-service states reachable by traces: the heap is
sorted by deadline and duplicate-free on deadlines, every record carries
a deadline, fired records precede heap records, deadlines of fired
records never exceed the clock, the fired list is sorted, record
identities are unique, and every identity in the service appears in the
ghost registration history. -/
def TInv (s : TState) : Prop :=
  (∀ w ∈ s.heap, w.expires.isSome) ∧
  s.heap.Pairwise (fun a b => eVal a ≤ eVal b) ∧
  s.fired.Pairwise (fun a b => eVal a ≤ eVal b) ∧
  (∀ f ∈ s.fired, eVal f ≤ s.clock) ∧
  (∀ f ∈ s.fired, ∀ h ∈ s.heap, eVal f ≤ eVal h) ∧
  (s.heap ++ s.fired).Pairwise (fun a b => a.wid ≠ b.wid) ∧
  (∀ v ∈ s.heap ++ s.fired, v.wid ∈ s.seen)

/-!
Helper lemmas about the Python comparison and removal helpers.
-/

theorem pyCmpo_eq_iff (a b : Option ℤ) : pyCmpo a b = .eq ↔ a = b := by
  cases a with
  | none => cases b <;> simp [pyCmpo]
  | some x =>
    cases b with
    | none => simp [pyCmpo]
    | some y =>
      simp only [pyCmpo, Option.some.injEq]
      split_ifs with h1 h2
      · simp only [reduceCtorEq, false_iff]
        omega
      · simp [h2]
      · simp only [reduceCtorEq, false_iff]
        omega

theorem pyEq_iff (v w : Wait) : pyEq v w = true ↔ v.expires = w.expires := by
  rw [← pyCmpo_eq_iff]
  cases hc : pyCmpo v.expires w.expires <;> simp [pyEq, hc] <;> decide

theorem pyEq_self (w : Wait) : pyEq w w = true :=
  (pyEq_iff w w).mpr rfl

theorem pyLe_some_iff (v w : Wait) (a b : ℤ) (hv : v.expires = some a)
    (hw : w.expires = some b) : pyLe v w = true ↔ a ≤ b := by
  simp only [pyLe, hv, hw, pyCmpo]
  by_cases h1 : a < b
  · simp only [if_pos h1]
    simp only [show (Ordering.lt != Ordering.gt) = true from rfl, true_iff]
    omega
  · by_cases h2 : a = b
    · simp only [if_neg h1, if_pos h2]
      simp only [show (Ordering.eq != Ordering.gt) = true from rfl, true_iff]
      omega
    · simp only [if_neg h1, if_neg h2]
      simp only [show (Ordering.gt != Ordering.gt) = false from rfl,
        Bool.false_eq_true, false_iff]
      omega

theorem removeFirstPyEq_split (l1 l2 : List Wait) (w : Wait)
    (h : ∀ v ∈ l1, v.expires ≠ w.expires) :
    removeFirstPyEq (l1 ++ w :: l2) w = some (l1 ++ l2) := by
  induction l1 with
  | nil => simp [removeFirstPyEq, pyEq_self]
  | cons v rest ih =>
    have hne : pyEq v w = false := by
      rw [← Bool.not_eq_true, pyEq_iff]
      exact h v (by simp)
    simp [removeFirstPyEq, hne, ih (fun u hu => h u (by simp [hu]))]

/-- Helper: a successful `list.remove` deletes exactly one element, the
first comparing Python-equal to the argument. -/
theorem removeFirstPyEq_eq_some (l : List Wait) (w : Wait) (r : List Wait)
    (heq : removeFirstPyEq l w = some r) :
    ∃ l1 x l2, l = l1 ++ x :: l2 ∧ r = l1 ++ l2 ∧ pyEq x w = true := by
  induction l generalizing r with
  | nil => simp [removeFirstPyEq] at heq
  | cons v rest ih =>
    unfold removeFirstPyEq at heq
    by_cases hpe : pyEq v w = true
    · rw [if_pos hpe, Option.some.injEq] at heq
      exact ⟨[], v, rest, rfl, heq.symm, hpe⟩
    · rw [if_neg hpe] at heq
      rw [Option.map_eq_some'] at heq
      obtain ⟨r0, hr0, hr⟩ := heq
      obtain ⟨l1, x, l2, hl, hrr, hx⟩ := ih r0 hr0
      refine ⟨v :: l1, x, l2, by rw [hl, List.cons_append], ?_, hx⟩
      rw [← hr, hrr, List.cons_append]

/-!
Claim theorems.
-/

/-- C9: because `Wait.__cmp__` compares only `expires`, Python `in`
treats any in-heap Wait with the same deadline as a duplicate, so
`Hub._add_timeout` of a Wait whose deadline equals one already in the
heap fails its assertion (AssertionError, modelled `none`) rather than
pushing the record: two distinct Wait records with equal `expires` are
never simultaneously registered in the timer heap. -/
theorem C9_equal_deadline_rejected (heap : List Wait) (w v : Wait)
    (hmem : v ∈ heap) (heq : v.expires = w.expires) :
    addTimeout heap w = none := by
  unfold addTimeout
  have h : heap.any (fun u => pyEq u w) = true :=
    List.any_eq_true.mpr ⟨v, hmem, (pyEq_iff v w).mpr heq⟩
  simp [h]

/-- Witness for C9: a second sleep registration with deadline 3 is
rejected while a distinct record with deadline 3 is in the heap. -/
theorem C9_equal_deadline_rejected_witness :
    addTimeout [⟨1, 0, some 3, .sleepw⟩] ⟨2, 0, some 3, .popwait⟩ = none :=
  C9_equal_deadline_rejected _ _ ⟨1, 0, some 3, .sleepw⟩ (by decide) (by decide)

/-- Helper: the retry loop ignores any prefix of EINTR outcomes. -/
theorem pullLoop_eintr_skip (n : Nat) (l : List WOut) :
    pullLoop (List.replicate n (.error EINTR) ++ l) = pullLoop l := by
  induction n with
  | zero => simp
  | succ m ih => simpa [List.replicate_succ, pullLoop] using ih

/-- Helper: bytes written also ignore the EINTR prefix. -/
theorem pullLoopBytes_eintr_skip (n : Nat) (l : List WOut) :
    pullLoopBytes (List.replicate n (.error EINTR) ++ l) = pullLoopBytes l := by
  induction n with
  | zero => simp
  | succ m ih => simpa [List.replicate_succ, pullLoopBytes] using ih

/-- C8: `Trigger.pull()` retries the write after any number of EINTR
failures and then writes exactly one byte; it returns quietly (no byte
written, no error) when the write fails with EAGAIN; it re-raises any
other I/O error unchanged; and when the Trigger is closed it raises
IOError(EBADF) without attempting a single write. -/
theorem C8_trigger_pull (outs : List WOut) (n e : Nat)
    (he1 : e ≠ EINTR) (he2 : e ≠ EAGAIN) :
    pull true outs = .ebadf ∧
    pullAttempts true outs = 0 ∧
    pull false (List.replicate n (.error EINTR) ++ [.success]) = .wrote ∧
    pullBytes false (List.replicate n (.error EINTR) ++ [.success]) = 1 ∧
    pull false (List.replicate n (.error EINTR) ++ [.error EAGAIN]) = .quiet ∧
    pullBytes false (List.replicate n (.error EINTR) ++ [.error EAGAIN]) = 0 ∧
    pull false (List.replicate n (.error EINTR) ++ [.error e]) = .raised e := by
  refine ⟨rfl, rfl, ?_, ?_, ?_, ?_, ?_⟩
  · show pullLoop (List.replicate n (.error EINTR) ++ [.success]) = .wrote
    rw [pullLoop_eintr_skip]
    decide
  · show pullLoopBytes (List.replicate n (.error EINTR) ++ [.success]) = 1
    rw [pullLoopBytes_eintr_skip]
    decide
  · show pullLoop (List.replicate n (.error EINTR) ++ [.error EAGAIN]) = .quiet
    rw [pullLoop_eintr_skip]
    decide
  · show pullLoopBytes (List.replicate n (.error EINTR) ++ [.error EAGAIN]) = 0
    rw [pullLoopBytes_eintr_skip]
    decide
  · show pullLoop (List.replicate n (.error EINTR) ++ [.error e]) = .raised e
    rw [pullLoop_eintr_skip]
    simp [pullLoop, he1, he2]

/-- Witness for C8 at two EINTR retries and errno 32 (EPIPE). -/
theorem C8_trigger_pull_witness :
    pull true [.success] = .ebadf ∧
    pullAttempts true [.success] = 0 ∧
    pull false (List.replicate 2 (.error EINTR) ++ [.success]) = .wrote ∧
    pullBytes false (List.replicate 2 (.error EINTR) ++ [.success]) = 1 ∧
    pull false (List.replicate 2 (.error EINTR) ++ [.error EAGAIN]) = .quiet ∧
    pullBytes false (List.replicate 2 (.error EINTR) ++ [.error EAGAIN]) = 0 ∧
    pull false (List.replicate 2 (.error EINTR) ++ [.error 32]) = .raised 32 :=
  C8_trigger_pull [.success] 2 32 (by decide) (by decide)

/-- C6 (code bug): `Queue.clear` empties the items deque but then calls
`_popped()` only once, waking only the head of `pop_waits`: with two
appenders parked (the first with a deadline), the head waiter has its
heap entry removed and its task scheduled, but the second waiter stays
parked in `pop_waits`, contradicting the specified wake-every-waiter
behaviour. -/
theorem C6_clear_wakes_only_head :
    Qclear ⟨[], [⟨1, 7, some 10, .popwait⟩], [],
        ⟨[5], some 1, [], [⟨1, 7, some 10, .popwait⟩, ⟨2, 8, none, .popwait⟩]⟩, 0, 3⟩ =
      some ⟨[], [], [.taskResume 7],
        ⟨[], some 1, [], [⟨2, 8, none, .popwait⟩]⟩, 0, 3⟩ ∧
    (⟨2, 8, none, .popwait⟩ : Wait) ∈
      [(⟨2, 8, none, .popwait⟩ : Wait)] := by decide

/-- C5 counterexample: on `Queue(maxlen=1)` with an idle Hub, `append`
then `append`, both without timeouts: the second append parks a PopWait
and runs the hub, but the loop guard is already false (wait deques are
not part of it), so `run()` returns at once and the resumed append
appends unconditionally; the program stays alive, raises nothing, and
observes `len(q) = 2 > 1 = maxlen`. -/
theorem C5_counterexample :
    (runCmds [.append 10 none, .append 20 none] (st0 (some 1))).2.1 = .alive ∧
    (runCmds [.append 10 none, .append 20 none] (st0 (some 1))).2.2 = [1, 2] := by
  decide

/-- C3 counterexample: the sibling removal performed when a Wait fires
by timer (`QueueWait.timeout` does `deque.remove(self)`) removes the
first record comparing equal under `Wait.__cmp__`, i.e. the first
record with an equal deadline, not the fired record itself.  With two
distinct PopWaits of deadline 5 parked (the earlier one no longer in
the heap, as happens when `wait_until_empty` re-parks a record whose
heap entry `_popped` already cancelled), firing the second removes the
first and leaves the fired record parked in the deque. -/
theorem C3_counterexample :
    handleTimeouts 2 ⟨[], [⟨2, 0, some 5, .popwait⟩], [],
        ⟨[], some 1, [], [⟨1, 7, some 5, .popwait⟩, ⟨2, 0, some 5, .popwait⟩]⟩, 5, 3⟩ =
      .exit (.thrownTimeout ⟨2, 0, some 5, .popwait⟩
        ⟨[], [], [], ⟨[], some 1, [], [⟨2, 0, some 5, .popwait⟩]⟩, 5, 3⟩) ∧
    (⟨1, 7, some 5, .popwait⟩ : Wait) ≠ ⟨2, 0, some 5, .popwait⟩ ∧
    pyEq ⟨1, 7, some 5, .popwait⟩ ⟨2, 0, some 5, .popwait⟩ = true := by decide

/-- C2 counterexample: after a queue-wait raises `Timeout`, the fired
Wait can still be in its queue's wait deque.  `QueueWait.timeout` does
`deque.remove(self)`, which removes the first record comparing equal
under `Wait.__cmp__` — the first record with an equal deadline — not
the fired record itself.  With two distinct PopWaits of deadline 6
parked (the earlier one no longer in the heap, as happens when
`wait_until_empty` re-parks a record whose heap entry `_popped` already
cancelled), firing the second by timeout removes the first instead, and
in the resulting state the fired record is still parked in the deque
when its task receives the `Timeout`. -/
theorem C2_counterexample :
    handleTimeouts 2 ⟨[], [⟨5, 2, some 6, .popwait⟩], [],
        ⟨[], none, [], [⟨4, 8, some 6, .popwait⟩, ⟨5, 2, some 6, .popwait⟩]⟩, 6, 6⟩ =
      .exit (.thrownTimeout ⟨5, 2, some 6, .popwait⟩
        ⟨[], [], [], ⟨[], none, [], [⟨5, 2, some 6, .popwait⟩]⟩, 6, 6⟩) ∧
    (⟨5, 2, some 6, .popwait⟩ : Wait) ∈
      (⟨[], [], [], ⟨[], none, [], [⟨5, 2, some 6, .popwait⟩]⟩, 6, 6⟩ : St).q.pop_waits ∧
    (⟨4, 8, some 6, .popwait⟩ : Wait) ≠ ⟨5, 2, some 6, .popwait⟩ := by decide

/-- C10: `pop()`/`popleft()` with no timeout on an empty Queue while
the Hub's run queue, readiness table and timer heap are all empty: the
queue wait deques are not part of the loop's continuation condition, so
`hub.run()` returns immediately (on the registration state `s` itself,
unchanged), no `Timeout` is raised, and the operation raises IndexError
from popping the empty items deque. -/
theorem C10_pop_empty_idle_hub (st : St) (fuel : Nat)
    (hfd : st.fdwaits = []) (hts : st.tasks = []) (hto : st.timeouts = [])
    (hq : st.q.queue = []) :
    ∃ s, Qpop st none (fuel+1) = .indexError s ∧
         Qpopleft st none (fuel+1) = .indexError s ∧
         s.q.queue = [] ∧
         hubRun sel0 (fuel+1) s = .ok s := by
  refine ⟨{ st with nextId := st.nextId + 1, q := { st.q with append_waits := st.q.append_waits ++ [⟨st.nextId, 0, none, .appendwait⟩] } }, ?_, ?_, ?_, ?_⟩
  · simp [Qpop, QpopFinish, waitForAppend, hubRun, hfd, hts, hto, hq]
  · simp [Qpopleft, QpopleftFinish, waitForAppend, hubRun, hfd, hts, hto, hq]
  · simp [hq]
  · simp [hubRun, hfd, hts, hto]

/-- Witness for C10: a fresh unbounded queue on a fresh hub. -/
theorem C10_pop_empty_idle_hub_witness :
    ∃ s, Qpop (st0 none) none 9 = .indexError s ∧
         Qpopleft (st0 none) none 9 = .indexError s ∧
         s.q.queue = [] ∧
         hubRun sel0 9 s = .ok s :=
  C10_pop_empty_idle_hub (st0 none) 8 rfl rfl rfl rfl

/-- Helper: `_run_tasks` never writes the items deque. -/
theorem runTasks_preserves (st : St) : preservesQueue st.q.queue (runTasks st) := by
  unfold runTasks
  repeat' split
  all_goals first
    | exact trivial
    | exact rfl

/-- Helper: firing a ready Wait never writes the items deque. -/
theorem fireReady_queue (st : St) (w : Wait) (s : St)
    (h : fireReady st w = some s) : s.q.queue = st.q.queue := by
  unfold fireReady at h
  cases hw : w.expires with
  | none =>
    rw [hw] at h
    simp only [Option.some.injEq] at h
    subst h
    rfl
  | some e =>
    rw [hw] at h
    cases hr : removeFirstPyEq st.timeouts w with
    | none => rw [hr] at h; exact absurd h (by simp)
    | some hh =>
      rw [hr] at h
      simp only [Option.some.injEq] at h
      subst h
      rfl

/-- Helper: firing a list of ready Waits never writes the items deque. -/
theorem fireReadyList_queue (ws : List Wait) (st : St) (s : St)
    (h : fireReadyList st ws = some s) : s.q.queue = st.q.queue := by
  induction ws generalizing st with
  | nil =>
    simp only [fireReadyList, Option.some.injEq] at h
    rw [h]
  | cons w rest ih =>
    unfold fireReadyList at h
    cases hf : fireReady st w with
    | none => rw [hf] at h; exact absurd h (by simp)
    | some st1 =>
      rw [hf] at h
      exact (ih st1 h).trans (fireReady_queue st w st1 hf)

/-- Helper: popping an expired root never writes the items deque. -/
theorem fireTimeoutStep_queue (st : St) (w : Wait) (rest : List Wait) :
    (fireTimeoutStep st w rest).q.queue = st.q.queue := by
  unfold fireTimeoutStep
  cases w.kind <;> rfl

/-- Helper: `_handle_timeouts` never writes the items deque. -/
theorem handleTimeouts_preserves (fuel : Nat) (st : St) :
    preservesQueueHT st.q.queue (handleTimeouts fuel st) := by
  induction fuel generalizing st with
  | zero => exact trivial
  | succ f ih =>
    cases hts : st.timeouts with
    | nil =>
      simp only [handleTimeouts, hts]
      exact rfl
    | cons w rest =>
      simp only [handleTimeouts, hts]
      by_cases hexp : eVal w - st.now ≤ 0
      · rw [if_pos hexp]
        have hq2 : (fireTimeoutStep st w rest).q.queue = st.q.queue :=
          fireTimeoutStep_queue st w rest
        have hpres := runTasks_preserves (fireTimeoutStep st w rest)
        revert hpres
        cases runTasks (fireTimeoutStep st w rest) with
        | ok st3 =>
          intro hpres
          have h3 : st3.q.queue = st.q.queue := by
            have h0 : st3.q.queue = (fireTimeoutStep st w rest).q.queue := hpres
            rw [h0, hq2]
          have h4 := ih st3
          rw [h3] at h4
          exact h4
        | thrownTimeout v s =>
          intro hpres
          show s.q.queue = st.q.queue
          have h0 : s.q.queue = (fireTimeoutStep st w rest).q.queue := hpres
          rw [h0, hq2]
        | resumedMain s =>
          intro hpres
          show s.q.queue = st.q.queue
          have h0 : s.q.queue = (fireTimeoutStep st w rest).q.queue := hpres
          rw [h0, hq2]
        | err => intro hp; exact trivial
        | fuelOut => intro hp; exact trivial
      · rw [if_neg hexp]
        exact rfl

/-- Helper: `Hub._run` never writes the items deque: whatever state a
hub run ends in or exits through, the queue contents are those at
entry. -/
theorem hubRun_preserves (sel : List Wait → Option ℤ → SelRes) (fuel : Nat) (st : St) :
    preservesQueue st.q.queue (hubRun sel fuel st) := by
  induction fuel generalizing st with
  | zero => exact trivial
  | succ f ih =>
    unfold hubRun
    split
    · exact rfl
    · cases hrt : runTasks st with
      | ok st1 =>
        have hpres := runTasks_preserves st
        rw [hrt] at hpres
        have h1 : st1.q.queue = st.q.queue := hpres
        try simp only [hrt]
        split
        · cases hht : handleTimeouts (st1.timeouts.length + 1) st1 with
          | exit r =>
            have hh := handleTimeouts_preserves (st1.timeouts.length + 1) st1
            rw [hht] at hh
            try simp only [hht]
            have h2 : preservesQueue st1.q.queue r := hh
            rw [h1] at h2
            exact h2
          | ret t st2 =>
            have hh := handleTimeouts_preserves (st1.timeouts.length + 1) st1
            rw [hht] at hh
            try simp only [hht]
            have h2 : st2.q.queue = st.q.queue := by
              have h0 : st2.q.queue = st1.q.queue := hh
              rw [h0, h1]
            cases hsel : sel st2.fdwaits t with
            | eintr e =>
              try simp only [hsel]
              have h5 := ih { st2 with now := st2.now + e }
              have h6 : ({ st2 with now := st2.now + e } : St).q.queue = st.q.queue := h2
              rw [h6] at h5
              exact h5
            | ready ws e =>
              try simp only [hsel]
              cases hf : fireReadyList { st2 with now := st2.now + e } ws with
              | none => try simp only [hf]; exact trivial
              | some st3 =>
                try simp only [hf]
                have hq3 : st3.q.queue = st.q.queue := by
                  have h0 := fireReadyList_queue ws { st2 with now := st2.now + e } st3 hf
                  exact h0.trans h2
                have h5 := ih st3
                rw [hq3] at h5
                exact h5
        · split
          · cases hht : handleTimeouts (st1.timeouts.length + 1) st1 with
            | exit r =>
              have hh := handleTimeouts_preserves (st1.timeouts.length + 1) st1
              rw [hht] at hh
              try simp only [hht]
              have h2 : preservesQueue st1.q.queue r := hh
              rw [h1] at h2
              exact h2
            | ret t st2 =>
              have hh := handleTimeouts_preserves (st1.timeouts.length + 1) st1
              rw [hht] at hh
              have h2 : st2.q.queue = st.q.queue := by
                have h0 : st2.q.queue = st1.q.queue := hh
                rw [h0, h1]
              try simp only [hht]
              cases t with
              | none =>
                have h5 := ih st2
                rw [h2] at h5
                exact h5
              | some tv =>
                have h5 := ih { st2 with now := st2.now + tv }
                have h6 : ({ st2 with now := st2.now + tv } : St).q.queue = st.q.queue := h2
                rw [h6] at h5
                exact h5
          · have h5 := ih st1
            rw [h1] at h5
            exact h5
      | thrownTimeout v s =>
        have hpres := runTasks_preserves st
        rw [hrt] at hpres
        try simp only [hrt]
        exact hpres
      | resumedMain s =>
        have hpres := runTasks_preserves st
        rw [hrt] at hpres
        try simp only [hrt]
        exact hpres
      | err => try simp only [hrt]; exact trivial
      | fuelOut => try simp only [hrt]; exact trivial

/-- Helper: the second half of append never raises `Timeout`. -/
theorem QappendFinish_not_timeout (v : Nat) (s s2 : St) :
    QappendFinish v s ≠ .timeout s2 := by
  unfold QappendFinish
  cases Qappended { s with q := { s.q with queue := s.q.queue ++ [v] } } <;> simp

/-- Helper: the second half of appendleft never raises `Timeout`. -/
theorem QappendleftFinish_not_timeout (v : Nat) (s s2 : St) :
    QappendleftFinish v s ≠ .timeout s2 := by
  unfold QappendleftFinish
  cases Qappended { s with q := { s.q with queue := v :: s.q.queue } } <;> simp

/-- Helper: the second half of pop never raises `Timeout`. -/
theorem QpopFinish_not_timeout (s s2 : St) : QpopFinish s ≠ .timeout s2 := by
  unfold QpopFinish
  repeat' split
  all_goals simp

/-- Helper: the second half of popleft never raises `Timeout`. -/
theorem QpopleftFinish_not_timeout (s s2 : St) : QpopleftFinish s ≠ .timeout s2 := by
  unfold QpopleftFinish
  repeat' split
  all_goals simp

/-- Helper: whatever run result `_wait_for_append` hands back, its state
carries the caller's items deque (registration touches only the wait
structures, and the hub run preserves the deque). -/
theorem waitForAppend_preserves (st : St) (tmo : Option ℤ) (fuel : Nat)
    (w : Wait) (r : RunRes) (h : waitForAppend st tmo fuel = some (w, r)) :
    preservesQueue st.q.queue r := by
  unfold waitForAppend at h
  split at h
  · simp only [Option.some.injEq, Prod.mk.injEq] at h
    rw [← h.2]
    exact hubRun_preserves sel0 fuel _
  · split at h
    · exact absurd h (by simp)
    · simp only [Option.some.injEq, Prod.mk.injEq] at h
      rw [← h.2]
      exact hubRun_preserves sel0 fuel _

/-- Helper: the `_wait_for_pop` counterpart of the previous lemma. -/
theorem waitForPop_preserves (st : St) (tmo : Option ℤ) (fuel : Nat)
    (w : Wait) (r : RunRes) (h : waitForPop st tmo fuel = some (w, r)) :
    preservesQueue st.q.queue r := by
  unfold waitForPop at h
  split at h
  · simp only [Option.some.injEq, Prod.mk.injEq] at h
    rw [← h.2]
    exact hubRun_preserves sel0 fuel _
  · split at h
    · exact absurd h (by simp)
    · simp only [Option.some.injEq, Prod.mk.injEq] at h
      rw [← h.2]
      exact hubRun_preserves sel0 fuel _

/-- C7: queue operations are atomic on timeout: whenever `append`,
`appendleft`, `pop` or `popleft` raises `Timeout`, the items deque in
the resulting state is exactly the one at the call — the `Timeout`
propagates from the suspension point before the underlying deque is
touched, so the item was not added respectively not removed. -/
theorem C7_timeout_atomic (st s : St) (v : Nat) (tmo : Option ℤ) (fuel : Nat) :
    (Qappend st v tmo fuel = .timeout s → s.q.queue = st.q.queue) ∧
    (Qappendleft st v tmo fuel = .timeout s → s.q.queue = st.q.queue) ∧
    (Qpop st tmo fuel = .timeout s → s.q.queue = st.q.queue) ∧
    (Qpopleft st tmo fuel = .timeout s → s.q.queue = st.q.queue) := by
  refine ⟨?_, ?_, ?_, ?_⟩
  · intro h
    unfold Qappend at h
    by_cases hfull : Qfull st.q
    · rw [if_pos hfull] at h
      cases hw : waitForPop st tmo fuel with
      | none => rw [hw] at h; exact absurd h (by simp)
      | some p =>
        obtain ⟨w, r⟩ := p
        have hpr := waitForPop_preserves st tmo fuel w r hw
        rw [hw] at h
        cases r with
        | ok s1 => exact absurd h (QappendFinish_not_timeout v s1 s)
        | resumedMain s1 => exact absurd h (QappendFinish_not_timeout v s1 s)
        | thrownTimeout w2 s1 =>
          simp only [OpRes.timeout.injEq] at h
          rw [← h]
          exact hpr
        | err => exact absurd h (by simp)
        | fuelOut => exact absurd h (by simp)
    · rw [if_neg hfull] at h
      exact absurd h (QappendFinish_not_timeout v st s)
  · intro h
    unfold Qappendleft at h
    by_cases hfull : Qfull st.q
    · rw [if_pos hfull] at h
      cases hw : waitForPop st tmo fuel with
      | none => rw [hw] at h; exact absurd h (by simp)
      | some p =>
        obtain ⟨w, r⟩ := p
        have hpr := waitForPop_preserves st tmo fuel w r hw
        rw [hw] at h
        cases r with
        | ok s1 => exact absurd h (QappendleftFinish_not_timeout v s1 s)
        | resumedMain s1 => exact absurd h (QappendleftFinish_not_timeout v s1 s)
        | thrownTimeout w2 s1 =>
          simp only [OpRes.timeout.injEq] at h
          rw [← h]
          exact hpr
        | err => exact absurd h (by simp)
        | fuelOut => exact absurd h (by simp)
    · rw [if_neg hfull] at h
      exact absurd h (QappendleftFinish_not_timeout v st s)
  · intro h
    unfold Qpop at h
    by_cases hq : st.q.queue = []
    · rw [if_pos hq] at h
      cases hw : waitForAppend st tmo fuel with
      | none => rw [hw] at h; exact absurd h (by simp)
      | some p =>
        obtain ⟨w, r⟩ := p
        have hpr := waitForAppend_preserves st tmo fuel w r hw
        rw [hw] at h
        cases r with
        | ok s1 => exact absurd h (QpopFinish_not_timeout s1 s)
        | resumedMain s1 => exact absurd h (QpopFinish_not_timeout s1 s)
        | thrownTimeout w2 s1 =>
          simp only [OpRes.timeout.injEq] at h
          rw [← h]
          exact hpr
        | err => exact absurd h (by simp)
        | fuelOut => exact absurd h (by simp)
    · rw [if_neg hq] at h
      exact absurd h (QpopFinish_not_timeout st s)
  · intro h
    unfold Qpopleft at h
    by_cases hq : st.q.queue = []
    · rw [if_pos hq] at h
      cases hw : waitForAppend st tmo fuel with
      | none => rw [hw] at h; exact absurd h (by simp)
      | some p =>
        obtain ⟨w, r⟩ := p
        have hpr := waitForAppend_preserves st tmo fuel w r hw
        rw [hw] at h
        cases r with
        | ok s1 => exact absurd h (QpopleftFinish_not_timeout s1 s)
        | resumedMain s1 => exact absurd h (QpopleftFinish_not_timeout s1 s)
        | thrownTimeout w2 s1 =>
          simp only [OpRes.timeout.injEq] at h
          rw [← h]
          exact hpr
        | err => exact absurd h (by simp)
        | fuelOut => exact absurd h (by simp)
    · rw [if_neg hq] at h
      exact absurd h (QpopleftFinish_not_timeout st s)

/-- Witness for C7: on `Queue(maxlen=0)` with an idle hub at time 0,
every operation with timeout 0 raises `Timeout` and ends in the same
state, whose items deque equals the initial (empty) one. -/
theorem C7_timeout_atomic_witness :
    ((⟨[], [], [], ⟨[], some 0, [], []⟩, 0, 2⟩ : St).q.queue = (st0 (some 0)).q.queue) ∧
    ((⟨[], [], [], ⟨[], some 0, [], []⟩, 0, 2⟩ : St).q.queue = (st0 (some 0)).q.queue) ∧
    ((⟨[], [], [], ⟨[], some 0, [], []⟩, 0, 2⟩ : St).q.queue = (st0 (some 0)).q.queue) ∧
    ((⟨[], [], [], ⟨[], some 0, [], []⟩, 0, 2⟩ : St).q.queue = (st0 (some 0)).q.queue) :=
  ⟨(C7_timeout_atomic (st0 (some 0)) ⟨[], [], [], ⟨[], some 0, [], []⟩, 0, 2⟩ 5 (some 0) 9).1
      (by decide),
    (C7_timeout_atomic (st0 (some 0)) ⟨[], [], [], ⟨[], some 0, [], []⟩, 0, 2⟩ 5 (some 0) 9).2.1
      (by decide),
    (C7_timeout_atomic (st0 (some 0)) ⟨[], [], [], ⟨[], some 0, [], []⟩, 0, 2⟩ 5 (some 0) 9).2.2.1
      (by decide),
    (C7_timeout_atomic (st0 (some 0)) ⟨[], [], [], ⟨[], some 0, [], []⟩, 0, 2⟩ 5 (some 0) 9).2.2.2
      (by decide)⟩

/-- Helper: `_handle_timeouts` never makes control leave the hub
greenlet through a normal `_run` return: its exits come from throwing
or switching inside a fired `wait.timeout()` runner. -/
theorem handleTimeouts_no_ok (fuel : Nat) (st s : St) :
    handleTimeouts fuel st ≠ .exit (.ok s) := by
  induction fuel generalizing st with
  | zero => simp [handleTimeouts]
  | succ f ih =>
    cases hts : st.timeouts with
    | nil => simp [handleTimeouts, hts]
    | cons w rest =>
      simp only [handleTimeouts, hts]
      by_cases hexp : eVal w - st.now ≤ 0
      · rw [if_pos hexp]
        cases hrt : runTasks (fireTimeoutStep st w rest) with
        | ok st3 =>
          try simp only [hrt]
          exact ih st3
        | thrownTimeout v s2 => try simp only [hrt]; simp
        | resumedMain s2 => try simp only [hrt]; simp
        | err => try simp only [hrt]; simp
        | fuelOut => try simp only [hrt]; simp
      · rw [if_neg hexp]
        simp

/-- C1: `Hub.run` returns exactly when the Hub's three structures are
empty: the `while self.fdwaits or self.tasks or self.timeouts` loop
repeats while any of the readiness table, run queue or timer heap is
nonempty, and when the loop returns normally all three are empty in the
final state; conversely a state with all three empty makes the loop
exit at once with the state unchanged (no task runnable, sleeping, or
waiting on I/O). -/
theorem C1_run_returns_iff_empty (sel : List Wait → Option ℤ → SelRes)
    (fuel : Nat) (st s : St) :
    (hubRun sel fuel st = .ok s →
      s.fdwaits = [] ∧ s.tasks = [] ∧ s.timeouts = []) ∧
    ((st.fdwaits = [] ∧ st.tasks = [] ∧ st.timeouts = []) →
      hubRun sel (fuel+1) st = .ok st) := by
  constructor
  · induction fuel generalizing st with
    | zero => intro h; exact absurd h (by simp [hubRun])
    | succ f ih =>
      intro h
      unfold hubRun at h
      split at h
      · next hg =>
        simp only [RunRes.ok.injEq] at h
        rw [← h]
        exact hg
      · cases hrt : runTasks st with
        | ok st1 =>
          simp only [hrt] at h
          split at h
          · cases hht : handleTimeouts (st1.timeouts.length + 1) st1 with
            | exit r =>
              simp only [hht] at h
              rw [h] at hht
              exact absurd hht (handleTimeouts_no_ok _ _ _)
            | ret t st2 =>
              simp only [hht] at h
              cases hsel : sel st2.fdwaits t with
              | eintr e =>
                simp only [hsel] at h
                exact ih _ h
              | ready ws e =>
                simp only [hsel] at h
                cases hf : fireReadyList { st2 with now := st2.now + e } ws with
                | none => simp only [hf] at h; exact absurd h (by simp)
                | some st3 =>
                  simp only [hf] at h
                  exact ih _ h
          · split at h
            · cases hht : handleTimeouts (st1.timeouts.length + 1) st1 with
              | exit r =>
                simp only [hht] at h
                rw [h] at hht
                exact absurd hht (handleTimeouts_no_ok _ _ _)
              | ret t st2 =>
                cases t with
                | none =>
                  simp only [hht] at h
                  exact ih _ h
                | some tv =>
                  simp only [hht] at h
                  exact ih _ h
            · exact ih _ h
        | thrownTimeout v s2 => simp only [hrt] at h; exact absurd h (by simp)
        | resumedMain s2 => simp only [hrt] at h; exact absurd h (by simp)
        | err => simp only [hrt] at h; exact absurd h (by simp)
        | fuelOut => simp only [hrt] at h; exact absurd h (by simp)
  · intro hg
    unfold hubRun
    rw [if_pos hg]

/-- Witness for C1 on a fresh idle hub: a terminating run ends with the
three structures empty, and the empty state exits immediately. -/
theorem C1_run_returns_iff_empty_witness :
    ((st0 none).fdwaits = [] ∧ (st0 none).tasks = [] ∧ (st0 none).timeouts = []) ∧
    hubRun sel0 2 (st0 none) = .ok (st0 none) :=
  ⟨(C1_run_returns_iff_empty sel0 1 (st0 none) (st0 none)).1 (by decide),
    (C1_run_returns_iff_empty sel0 1 (st0 none) (st0 none)).2 (by decide)⟩

/-- C2 (amended): whenever a Wait fires by timeout, a sibling-state
removal runs before its task is resumed with `Timeout`.  Handling the
expired heap root (with the run queue drained, as it is when
`_handle_timeouts` runs): an `FDWait` is removed from the readiness
table before `greenlet(wait.timeout)` throws, so no record with its
identity is in `fdwaits` in the state that receives the throw; a
Queue-wait's removal from its queue's per-side wait deque by
`QueueWait.timeout` before the throw is `deque.remove`, matching by
deadline, so the record removed is the fired one exactly when no
distinct equal-deadline record precedes it in the deque — guaranteed
while deque records hold their heap entries, by `_add_timeout`'s
assertion, but not in the re-parked state of the counterexample, where
the removal takes the earlier equal-deadline record and the fired Wait
stays parked. -/
theorem C2_timeout_removes_sibling (st : St) (w : Wait) (rest : List Wait)
    (e : ℤ) (fuel : Nat)
    (htasks : st.tasks = []) (hts : st.timeouts = w :: rest)
    (hw : w.expires = some e) (hexp : e ≤ st.now) :
    (∀ fd m, w.kind = .fdwait fd m →
      ∃ s, handleTimeouts (fuel+1) st = .exit (.thrownTimeout w s) ∧
        s.timeouts = rest ∧ (∀ v ∈ s.fdwaits, v.wid ≠ w.wid)) ∧
    (∀ l1 l2, w.kind = .popwait → st.q.pop_waits = l1 ++ w :: l2 →
      (∀ v ∈ l1, v.expires ≠ w.expires) →
      (∀ v ∈ l1 ++ l2, v.wid ≠ w.wid) →
      ∃ s, handleTimeouts (fuel+1) st = .exit (.thrownTimeout w s) ∧
        s.timeouts = rest ∧ s.q.pop_waits = l1 ++ l2 ∧
        (∀ v ∈ s.q.pop_waits, v.wid ≠ w.wid)) ∧
    (∀ l1 l2, w.kind = .appendwait → st.q.append_waits = l1 ++ w :: l2 →
      (∀ v ∈ l1, v.expires ≠ w.expires) →
      (∀ v ∈ l1 ++ l2, v.wid ≠ w.wid) →
      ∃ s, handleTimeouts (fuel+1) st = .exit (.thrownTimeout w s) ∧
        s.timeouts = rest ∧ s.q.append_waits = l1 ++ l2 ∧
        (∀ v ∈ s.q.append_waits, v.wid ≠ w.wid)) := by
  obtain ⟨fdw, tos, tks, q0, now0, nid⟩ := st
  simp only at htasks hts hexp
  subst htasks
  subst hts
  have hcond : eVal w - now0 ≤ 0 := by
    simp only [eVal, hw, Option.getD_some]
    omega
  refine ⟨?_, ?_, ?_⟩
  · intro fd m hk
    refine ⟨⟨removeById fdw w, rest, [], q0, now0, nid⟩, ?_, rfl, ?_⟩
    · simp only [handleTimeouts]
      rw [if_pos hcond]
      simp [fireTimeoutStep, hk, runTasks, removeById]
    · intro v hv
      simp only [removeById, List.mem_filter, decide_eq_true_eq] at hv
      exact hv.2
  · intro l1 l2 hk hsplit hne hwid
    refine ⟨⟨fdw, rest, [], { q0 with pop_waits := l1 ++ l2 }, now0, nid⟩, ?_, rfl, rfl, ?_⟩
    · simp only [handleTimeouts]
      rw [if_pos hcond]
      simp only [fireTimeoutStep, hk, List.nil_append, runTasks]
      simp only at hsplit
      rw [hsplit, removeFirstPyEq_split l1 l2 w (fun v hv => hne v hv)]
    · intro v hv
      exact hwid v (by simpa using hv)
  · intro l1 l2 hk hsplit hne hwid
    refine ⟨⟨fdw, rest, [], { q0 with append_waits := l1 ++ l2 }, now0, nid⟩, ?_, rfl, rfl, ?_⟩
    · simp only [handleTimeouts]
      rw [if_pos hcond]
      simp only [fireTimeoutStep, hk, List.nil_append, runTasks]
      simp only at hsplit
      rw [hsplit, removeFirstPyEq_split l1 l2 w (fun v hv => hne v hv)]
    · intro v hv
      exact hwid v (by simpa using hv)

/-- Witness for C2: an expired FDWait, an expired PopWait (preceded in
its deque by a record with a different deadline), and an expired
AppendWait, each fired at time 5. -/
theorem C2_timeout_removes_sibling_witness :
    (∃ s, handleTimeouts 3
        ⟨[⟨1, 7, some 5, .fdwait 3 1⟩], [⟨1, 7, some 5, .fdwait 3 1⟩], [],
          ⟨[], none, [], []⟩, 5, 2⟩ =
        .exit (.thrownTimeout ⟨1, 7, some 5, .fdwait 3 1⟩ s) ∧
      s.timeouts = [] ∧ (∀ v ∈ s.fdwaits, v.wid ≠ 1)) ∧
    (∃ s, handleTimeouts 3
        ⟨[], [⟨2, 7, some 5, .popwait⟩], [],
          ⟨[], none, [], [⟨9, 8, some 4, .popwait⟩, ⟨2, 7, some 5, .popwait⟩]⟩, 5, 3⟩ =
        .exit (.thrownTimeout ⟨2, 7, some 5, .popwait⟩ s) ∧
      s.timeouts = [] ∧ s.q.pop_waits = [⟨9, 8, some 4, .popwait⟩] ++ [] ∧
      (∀ v ∈ s.q.pop_waits, v.wid ≠ 2)) ∧
    (∃ s, handleTimeouts 3
        ⟨[], [⟨4, 7, some 5, .appendwait⟩], [],
          ⟨[], none, [⟨4, 7, some 5, .appendwait⟩], []⟩, 5, 3⟩ =
        .exit (.thrownTimeout ⟨4, 7, some 5, .appendwait⟩ s) ∧
      s.timeouts = [] ∧ s.q.append_waits = [] ++ [] ∧
      (∀ v ∈ s.q.append_waits, v.wid ≠ 4)) :=
  ⟨(C2_timeout_removes_sibling
      ⟨[⟨1, 7, some 5, .fdwait 3 1⟩], [⟨1, 7, some 5, .fdwait 3 1⟩], [],
        ⟨[], none, [], []⟩, 5, 2⟩
      ⟨1, 7, some 5, .fdwait 3 1⟩ [] 5 2 rfl rfl rfl (by decide)).1 3 1 rfl,
    (C2_timeout_removes_sibling
      ⟨[], [⟨2, 7, some 5, .popwait⟩], [],
        ⟨[], none, [], [⟨9, 8, some 4, .popwait⟩, ⟨2, 7, some 5, .popwait⟩]⟩, 5, 3⟩
      ⟨2, 7, some 5, .popwait⟩ [] 5 2 rfl rfl rfl (by decide)).2.1
      [⟨9, 8, some 4, .popwait⟩] [] rfl rfl (by decide) (by decide),
    (C2_timeout_removes_sibling
      ⟨[], [⟨4, 7, some 5, .appendwait⟩], [],
        ⟨[], none, [⟨4, 7, some 5, .appendwait⟩], []⟩, 5, 3⟩
      ⟨4, 7, some 5, .appendwait⟩ [] 5 2 rfl rfl rfl (by decide)).2.2
      [] [] rfl rfl (by decide) (by decide)⟩

/-- C3 amended: a Wait fired by readiness that carries a deadline is
removed from the timer heap as part of the firing, before its task is
scheduled; the readiness-table removal is by record identity (the set
hashes records by identity), while the heap removal is by first
deadline-equality match (`Wait.__cmp__`), which removes exactly the
fired record whenever the heap holds no distinct record with an equal
deadline — the invariant `_add_timeout`'s assertion maintains — but not
by record identity in general (see the counterexample). -/
theorem C3_amended_ready_fire (st : St) (w : Wait) (e : ℤ) (h1 h2 : List Wait)
    (hw : w.expires = some e)
    (hsplit : st.timeouts = h1 ++ w :: h2)
    (hne : ∀ v ∈ h1, v.expires ≠ w.expires)
    (hwid : ∀ v ∈ h1 ++ h2, v.wid ≠ w.wid) :
    ∃ s, fireReady st w = some s ∧
      s.timeouts = h1 ++ h2 ∧
      (∀ v ∈ s.timeouts, v.wid ≠ w.wid) ∧
      s.fdwaits = removeById st.fdwaits w ∧
      s.tasks = st.tasks ++ [.taskResume w.task] := by
  refine ⟨{ st with
      fdwaits := removeById st.fdwaits w
      timeouts := h1 ++ h2
      tasks := st.tasks ++ [.taskResume w.task] }, ?_, rfl, ?_, rfl, rfl⟩
  · simp only [fireReady, hw]
    rw [hsplit, removeFirstPyEq_split h1 h2 w hne]
  · intro v hv
    exact hwid v hv

/-- Witness for C3 amended: an FDWait with deadline 5 fired by
readiness, sharing the heap with a distinct record of deadline 4. -/
theorem C3_amended_ready_fire_witness :
    ∃ s, fireReady
        ⟨[⟨2, 7, some 5, .fdwait 3 1⟩],
          [⟨9, 8, some 4, .sleepw⟩, ⟨2, 7, some 5, .fdwait 3 1⟩], [],
          ⟨[], none, [], []⟩, 0, 3⟩ ⟨2, 7, some 5, .fdwait 3 1⟩ = some s ∧
      s.timeouts = [⟨9, 8, some 4, .sleepw⟩] ++ [] ∧
      (∀ v ∈ s.timeouts, v.wid ≠ 2) ∧
      s.fdwaits = removeById [⟨2, 7, some 5, .fdwait 3 1⟩] ⟨2, 7, some 5, .fdwait 3 1⟩ ∧
      s.tasks = [] ++ [.taskResume 7] :=
  C3_amended_ready_fire
    ⟨[⟨2, 7, some 5, .fdwait 3 1⟩],
      [⟨9, 8, some 4, .sleepw⟩, ⟨2, 7, some 5, .fdwait 3 1⟩], [],
      ⟨[], none, [], []⟩, 0, 3⟩
    ⟨2, 7, some 5, .fdwait 3 1⟩ 5 [⟨9, 8, some 4, .sleepw⟩] []
    rfl rfl (by decide) (by decide)

/-- Helper: membership in a heap push. -/
theorem heapPush_mem_iff (l : List Wait) (w x : Wait) :
    x ∈ heapPush l w ↔ x ∈ l ∨ x = w := by
  induction l with
  | nil => simp [heapPush]
  | cons v rest ih =>
    unfold heapPush
    by_cases hle : pyLe v w
    · simp only [if_pos hle, List.mem_cons, ih]
      tauto
    · simp only [if_neg hle, List.mem_cons]
      tauto

/-- Helper: a heap push permutes to a cons. -/
theorem heapPush_perm (l : List Wait) (w : Wait) : (heapPush l w).Perm (w :: l) := by
  induction l with
  | nil => simp [heapPush]
  | cons v rest ih =>
    unfold heapPush
    by_cases hle : pyLe v w
    · rw [if_pos hle]
      exact (ih.cons v).trans (List.Perm.swap w v rest)
    · rw [if_neg hle]

/-- Helper: a heap push keeps the heap sorted by deadline. -/
theorem heapPush_pairwise (l : List Wait) (w : Wait) (e : ℤ)
    (hw : w.expires = some e)
    (hs : ∀ v ∈ l, v.expires.isSome)
    (hp : l.Pairwise (fun a b => eVal a ≤ eVal b)) :
    (heapPush l w).Pairwise (fun a b => eVal a ≤ eVal b) := by
  induction l with
  | nil => simp [heapPush]
  | cons v rest ih =>
    obtain ⟨a, ha⟩ := Option.isSome_iff_exists.mp (hs v (by simp))
    rw [List.pairwise_cons] at hp
    unfold heapPush
    by_cases hle : pyLe v w
    · rw [if_pos hle]
      rw [List.pairwise_cons]
      constructor
      · intro x hx
        rw [heapPush_mem_iff] at hx
        cases hx with
        | inl hx => exact hp.1 x hx
        | inr hx =>
          rw [hx]
          have := (pyLe_some_iff v w a e ha hw).mp hle
          simp [eVal, ha, hw]
          omega
      · exact ih (fun u hu => hs u (by simp [hu])) hp.2
    · rw [if_neg hle]
      have hva : ¬ (a ≤ e) := fun hc => hle ((pyLe_some_iff v w a e ha hw).mpr hc)
      rw [List.pairwise_cons]
      constructor
      · intro x hx
        rcases List.mem_cons.mp hx with hx | hx
        · rw [hx]
          simp [eVal, ha, hw]
          omega
        · have h1 : eVal v ≤ eVal x := hp.1 x hx
          have h2 : eVal w ≤ eVal v := by
            simp [eVal, ha, hw]
            omega
          exact le_trans h2 h1
      · exact List.pairwise_cons.mpr hp

/-- Helper: in a sorted heap, everything left after dropping the
expired prefix is unexpired. -/
theorem dropWhile_unexpired (l : List Wait) (now : ℤ)
    (hp : l.Pairwise (fun a b => eVal a ≤ eVal b)) :
    ∀ x ∈ l.dropWhile (fun w => eVal w ≤ now), ¬ (eVal x ≤ now) := by
  induction l with
  | nil => simp
  | cons v rest ih =>
    rw [List.pairwise_cons] at hp
    intro x hx
    by_cases hv : eVal v ≤ now
    · rw [List.dropWhile_cons_of_pos (by simp [hv])] at hx
      exact ih hp.2 x hx
    · rw [List.dropWhile_cons_of_neg (by simp [hv])] at hx
      rcases List.mem_cons.mp hx with hx | hx
      · rw [hx]; exact hv
      · have := hp.1 x hx
        omega

/-- Helper: one timer-service event preserves the trace invariant. -/
theorem traceStep_TInv (s s2 : TState) (ev : TEv)
    (hinv : TInv s) (h : traceStep s ev = some s2) : TInv s2 := by
  obtain ⟨h1, h2, h3, h4, h5, h6, h7⟩ := hinv
  cases ev with
  | add w =>
    simp only [traceStep] at h
    cases hw : w.expires with
    | none => rw [hw] at h; exact absurd h (by simp)
    | some e =>
      rw [hw] at h
      split at h
      · exact absurd h (by simp)
      · next e2 heq2 =>
        obtain rfl : e2 = e := by injection heq2 with h0; exact h0.symm
        split at h
        · exact absurd h (by simp)
        · next hclk =>
          split at h
          · exact absurd h (by simp)
          · next hwid =>
            rw [Option.map_eq_some'] at h
            obtain ⟨hp, hadd, hs2⟩ := h
            unfold addTimeout at hadd
            split at hadd
            · exact absurd hadd (by simp)
            · rw [Option.some.injEq] at hadd
              subst hadd
              subst hs2
              have hwseen : w.wid ∉ s.seen := by
                intro hc
                exact hwid (List.any_eq_true.mpr ⟨w.wid, hc, by simp⟩)
              have hwid2 : ∀ v ∈ s.heap ++ s.fired, v.wid ≠ w.wid := by
                intro v hv hc
                exact hwseen (hc ▸ h7 v hv)
              refine ⟨?_, ?_, h3, h4, ?_, ?_, ?_⟩
              · intro x hx
                rcases (heapPush_mem_iff s.heap w x).mp hx with hx | hx
                · exact h1 x hx
                · rw [hx, hw]; simp
              · exact heapPush_pairwise s.heap w e2 hw h1 h2
              · intro f hf x hx
                rcases (heapPush_mem_iff s.heap w x).mp hx with hx | hx
                · exact h5 f hf x hx
                · rw [hx]
                  have hfc := h4 f hf
                  have hce : s.clock ≤ e2 := by omega
                  have hev : eVal w = e2 := by simp [eVal, hw]
                  rw [hev]
                  omega
              · have hperm : ((heapPush s.heap w) ++ s.fired).Perm
                    ((w :: s.heap) ++ s.fired) :=
                  (heapPush_perm s.heap w).append_right s.fired
                show List.Pairwise (fun a b : Wait => a.wid ≠ b.wid)
                  ((heapPush s.heap w) ++ s.fired)
                refine (List.Perm.pairwise_iff ?_ hperm).mpr ?_
                · intro a b hab
                  exact hab.symm
                · rw [List.cons_append, List.pairwise_cons]
                  exact ⟨fun v hv => (hwid2 v hv).symm, h6⟩
              · intro v hv
                show v.wid ∈ w.wid :: s.seen
                rcases List.mem_append.mp hv with hv | hv
                · rcases (heapPush_mem_iff s.heap w v).mp hv with hv | hv
                  · exact List.mem_cons_of_mem _ (h7 v (List.mem_append.mpr (Or.inl hv)))
                  · rw [hv]; exact List.mem_cons_self _ _
                · exact List.mem_cons_of_mem _ (h7 v (List.mem_append.mpr (Or.inr hv)))
  | remove w =>
    simp only [traceStep] at h
    rw [Option.map_eq_some'] at h
    obtain ⟨hp, hrm, hs2⟩ := h
    subst hs2
    obtain ⟨l1, x, l2, hl, hr, _⟩ := removeFirstPyEq_eq_some s.heap w hp hrm
    have hsub : hp.Sublist s.heap := by
      rw [hl, hr]
      exact ((List.Sublist.refl l2).cons x).append_left l1
    refine ⟨?_, h2.sublist hsub, h3, h4, ?_, ?_, ?_⟩
    · intro x2 hx2
      exact h1 x2 (hsub.subset hx2)
    · intro f hf x2 hx2
      exact h5 f hf x2 (hsub.subset hx2)
    · exact h6.sublist (hsub.append_right s.fired)
    · intro v hv
      show v.wid ∈ s.seen
      rcases List.mem_append.mp hv with hv | hv
      · exact h7 v (List.mem_append.mpr (Or.inl (hsub.subset hv)))
      · exact h7 v (List.mem_append.mpr (Or.inr hv))
  | fire now =>
    simp only [traceStep] at h
    split at h
    · exact absurd h (by simp)
    · next hclk =>
      simp only [Option.some.injEq] at h
      subst h
      have hsplit : s.heap.takeWhile (fun w => eVal w ≤ now) ++
          s.heap.dropWhile (fun w => eVal w ≤ now) = s.heap :=
        List.takeWhile_append_dropWhile _ _
      have htake : ∀ x ∈ s.heap.takeWhile (fun w => eVal w ≤ now), eVal x ≤ now := by
        intro x hx
        have := List.mem_takeWhile_imp hx
        simpa using this
      have htakemem : ∀ x ∈ s.heap.takeWhile (fun w => eVal w ≤ now), x ∈ s.heap :=
        fun x hx => (List.takeWhile_sublist _).subset hx
      have hdropmem : ∀ x ∈ s.heap.dropWhile (fun w => eVal w ≤ now), x ∈ s.heap :=
        fun x hx => (List.dropWhile_sublist _).subset hx
      have hcross : ∀ a ∈ s.heap.takeWhile (fun w => eVal w ≤ now),
          ∀ b ∈ s.heap.dropWhile (fun w => eVal w ≤ now), eVal a ≤ eVal b := by
        have h2s := h2
        rw [← hsplit, List.pairwise_append] at h2s
        exact h2s.2.2
      refine ⟨?_, ?_, ?_, ?_, ?_, ?_, ?_⟩
      · intro x hx
        exact h1 x (hdropmem x hx)
      · exact h2.sublist (List.dropWhile_sublist _)
      · rw [List.pairwise_append]
        refine ⟨h3, h2.sublist (List.takeWhile_sublist _), ?_⟩
        intro f hf t ht
        exact h5 f hf t (htakemem t ht)
      · intro f hf
        rcases List.mem_append.mp hf with hf | hf
        · have := h4 f hf
          show eVal f ≤ now
          omega
        · exact htake f hf
      · intro f hf d hd
        rcases List.mem_append.mp hf with hf | hf
        · exact h5 f hf d (hdropmem d hd)
        · exact hcross f hf d hd
      · have hperm : (s.heap.dropWhile (fun w => eVal w ≤ now) ++
            (s.fired ++ s.heap.takeWhile (fun w => eVal w ≤ now))).Perm
            (s.heap ++ s.fired) := by
          refine List.Perm.trans List.perm_append_comm ?_
          rw [List.append_assoc, hsplit]
          exact List.perm_append_comm
        show List.Pairwise (fun a b : Wait => a.wid ≠ b.wid)
          (s.heap.dropWhile (fun w => eVal w ≤ now) ++
            (s.fired ++ s.heap.takeWhile (fun w => eVal w ≤ now)))
        refine (List.Perm.pairwise_iff ?_ hperm).mpr h6
        intro a b hab
        exact hab.symm
      · intro v hv
        show v.wid ∈ s.seen
        rcases List.mem_append.mp hv with hv | hv
        · exact h7 v (List.mem_append.mpr (Or.inl (hdropmem v hv)))
        · rcases List.mem_append.mp hv with hv | hv
          · exact h7 v (List.mem_append.mpr (Or.inr hv))
          · exact h7 v (List.mem_append.mpr (Or.inl (htakemem v hv)))

/-- Helper: the initial timer-service state satisfies the invariant. -/
theorem tInit_TInv : TInv tInit := by
  refine ⟨?_, ?_, ?_, ?_, ?_, ?_⟩ <;> simp [tInit]

/-- Helper: a trace execution preserves the invariant. -/
theorem traceExec_TInv (tr : List TEv) (s s2 : TState)
    (hinv : TInv s) (h : traceExec tr s = some s2) : TInv s2 := by
  induction tr generalizing s with
  | nil =>
    simp only [traceExec, Option.some.injEq] at h
    rw [← h]
    exact hinv
  | cons ev tr ih =>
    simp only [traceExec] at h
    cases hst : traceStep s ev with
    | none => rw [hst] at h; exact absurd h (by simp)
    | some s1 =>
      rw [hst] at h
      exact ih s1 (traceStep_TInv s s1 ev hinv hst) h

/-- Helper: trace execution splits over concatenation. -/
theorem traceExec_append (a b : List TEv) (s : TState) :
    traceExec (a ++ b) s = (traceExec a s).bind (traceExec b) := by
  induction a generalizing s with
  | nil => simp [traceExec]
  | cons ev tr ih =>
    simp only [List.cons_append, traceExec]
    cases h : traceStep s ev with
    | none => simp
    | some s1 => simp [ih s1]

/-- Helper: characterization of a successful registration event. -/
theorem traceStep_add_some (s : TState) (w : Wait) (s2 : TState)
    (h : traceStep s (.add w) = some s2) :
    s2.heap = heapPush s.heap w ∧ s2.fired = s.fired ∧ s2.clock = s.clock ∧
    s2.seen = w.wid :: s.seen ∧
    (∃ e, w.expires = some e ∧ s.clock ≤ e) ∧
    w.wid ∉ s.seen ∧
    (∀ v ∈ s.heap, pyEq v w = false) := by
  simp only [traceStep] at h
  cases hw : w.expires with
  | none => rw [hw] at h; exact absurd h (by simp)
  | some e =>
    rw [hw] at h
    split at h
    · exact absurd h (by simp)
    · next e2 heq2 =>
      obtain rfl : e2 = e := by injection heq2 with h0; exact h0.symm
      split at h
      · exact absurd h (by simp)
      · next hclk =>
        split at h
        · exact absurd h (by simp)
        · next hwid =>
          rw [Option.map_eq_some'] at h
          obtain ⟨hp, hadd, hs2⟩ := h
          unfold addTimeout at hadd
          split at hadd
          · exact absurd hadd (by simp)
          · next hdup =>
            rw [Option.some.injEq] at hadd
            subst hadd
            subst hs2
            refine ⟨rfl, rfl, rfl, rfl, ⟨e2, rfl, by omega⟩, ?_, ?_⟩
            · intro hc
              exact hwid (List.any_eq_true.mpr ⟨w.wid, hc, by simp⟩)
            · intro v hv
              by_contra hc
              rw [Bool.not_eq_false] at hc
              exact hdup (List.any_eq_true.mpr ⟨v, hv, hc⟩)

/-- Helper: characterization of a firing pass. -/
theorem traceStep_fire_some (s : TState) (now : ℤ) (s2 : TState)
    (h : traceStep s (.fire now) = some s2) :
    s2.heap = s.heap.dropWhile (fun w => eVal w ≤ now) ∧
    s2.fired = s.fired ++ s.heap.takeWhile (fun w => eVal w ≤ now) ∧
    s2.clock = now ∧ s2.seen = s.seen ∧ s.clock ≤ now := by
  simp only [traceStep] at h
  split at h
  · exact absurd h (by simp)
  · next hclk =>
    rw [Option.some.injEq] at h
    subst h
    exact ⟨rfl, rfl, rfl, rfl, by omega⟩

/-- Helper: characterization of a cancellation event. -/
theorem traceStep_remove_some (s : TState) (w : Wait) (s2 : TState)
    (h : traceStep s (.remove w) = some s2) :
    s2.fired = s.fired ∧ s2.clock = s.clock ∧ s2.seen = s.seen ∧
    (∀ x ∈ s2.heap, x ∈ s.heap) := by
  simp only [traceStep] at h
  rw [Option.map_eq_some'] at h
  obtain ⟨hp, hrm, hs2⟩ := h
  subst hs2
  obtain ⟨l1, x, l2, hl, hr, _⟩ := removeFirstPyEq_eq_some s.heap w hp hrm
  refine ⟨rfl, rfl, rfl, ?_⟩
  intro y hy
  show y ∈ s.heap
  have hy2 : y ∈ hp := hy
  rw [hr] at hy2
  rw [hl]
  rcases List.mem_append.mp hy2 with hc | hc
  · exact List.mem_append.mpr (Or.inl hc)
  · exact List.mem_append.mpr (Or.inr (List.mem_cons_of_mem x hc))

/-- Helper: a step only appends to the fired list and only extends the
registration history. -/
theorem traceStep_shape (s : TState) (ev : TEv) (s2 : TState)
    (h : traceStep s ev = some s2) :
    (∃ t, s2.fired = s.fired ++ t) ∧ (∀ i ∈ s.seen, i ∈ s2.seen) := by
  cases ev with
  | add w0 =>
    obtain ⟨_, hf, _, hsn, _, _, _⟩ := traceStep_add_some s w0 s2 h
    exact ⟨⟨[], by simp [hf]⟩,
      fun i hi => by rw [hsn]; exact List.mem_cons_of_mem _ hi⟩
  | remove w0 =>
    obtain ⟨hf, _, hsn, _⟩ := traceStep_remove_some s w0 s2 h
    exact ⟨⟨[], by simp [hf]⟩, fun i hi => by rw [hsn]; exact hi⟩
  | fire now =>
    obtain ⟨_, hf, _, hsn, _⟩ := traceStep_fire_some s now s2 h
    exact ⟨⟨_, hf⟩, fun i hi => by rw [hsn]; exact hi⟩

/-- Helper: a record whose identity is already in the registration
history but which is in neither the heap nor the fired list can never
re-enter the service: freshness blocks re-registration. -/
theorem traceStep_absent (s s2 : TState) (ev : TEv) (w : Wait)
    (h : traceStep s ev = some s2)
    (hseen : w.wid ∈ s.seen) (hh : w ∉ s.heap) (hf : w ∉ s.fired) :
    w.wid ∈ s2.seen ∧ w ∉ s2.heap ∧ w ∉ s2.fired := by
  cases ev with
  | add w0 =>
    obtain ⟨hheap, hfired, _, hsn, _, hfresh, _⟩ := traceStep_add_some s w0 s2 h
    refine ⟨by rw [hsn]; exact List.mem_cons_of_mem _ hseen, ?_,
      by rw [hfired]; exact hf⟩
    rw [hheap]
    intro hc
    rcases (heapPush_mem_iff s.heap w0 w).mp hc with hc | hc
    · exact hh hc
    · exact hfresh (hc ▸ hseen)
  | remove w0 =>
    obtain ⟨hfired, _, hsn, hsub⟩ := traceStep_remove_some s w0 s2 h
    exact ⟨by rw [hsn]; exact hseen, fun hc => hh (hsub w hc),
      by rw [hfired]; exact hf⟩
  | fire now =>
    obtain ⟨hheap, hfired, _, hsn, _⟩ := traceStep_fire_some s now s2 h
    refine ⟨by rw [hsn]; exact hseen, ?_, ?_⟩
    · rw [hheap]
      intro hc
      exact hh ((List.dropWhile_sublist _).subset hc)
    · rw [hfired]
      intro hc
      rcases List.mem_append.mp hc with hc | hc
      · exact hf hc
      · exact hh ((List.takeWhile_sublist _).subset hc)

/-- Helper: execution only appends to the fired list. -/
theorem traceExec_fired_front (tr : List TEv) (s s2 : TState)
    (h : traceExec tr s = some s2) : ∃ t, s2.fired = s.fired ++ t := by
  induction tr generalizing s with
  | nil =>
    simp only [traceExec, Option.some.injEq] at h
    exact ⟨[], by simp [← h]⟩
  | cons ev tr ih =>
    simp only [traceExec] at h
    cases hst : traceStep s ev with
    | none => rw [hst] at h; exact absurd h (by simp)
    | some s1 =>
      rw [hst] at h
      obtain ⟨t1, ht1⟩ := (traceStep_shape s ev s1 hst).1
      obtain ⟨t2, ht2⟩ := ih s1 h
      exact ⟨t1 ++ t2, by rw [ht2, ht1, List.append_assoc]⟩

/-- Helper: the registration history only grows along an execution. -/
theorem traceExec_seen_mono (tr : List TEv) (s s2 : TState)
    (h : traceExec tr s = some s2) : ∀ i ∈ s.seen, i ∈ s2.seen := by
  induction tr generalizing s with
  | nil =>
    simp only [traceExec, Option.some.injEq] at h
    rw [← h]
    exact fun i hi => hi
  | cons ev tr ih =>
    simp only [traceExec] at h
    cases hst : traceStep s ev with
    | none => rw [hst] at h; exact absurd h (by simp)
    | some s1 =>
      rw [hst] at h
      exact fun i hi => ih s1 h i ((traceStep_shape s ev s1 hst).2 i hi)

/-- Helper: a record out of the service whose identity is already in
the registration history stays out along any execution. -/
theorem traceExec_absent (tr : List TEv) (s s2 : TState) (w : Wait)
    (hseen : w.wid ∈ s.seen) (hh : w ∉ s.heap) (hf : w ∉ s.fired)
    (h : traceExec tr s = some s2) :
    w.wid ∈ s2.seen ∧ w ∉ s2.heap ∧ w ∉ s2.fired := by
  induction tr generalizing s with
  | nil =>
    simp only [traceExec, Option.some.injEq] at h
    rw [← h]
    exact ⟨hseen, hh, hf⟩
  | cons ev tr ih =>
    simp only [traceExec] at h
    cases hst : traceStep s ev with
    | none => rw [hst] at h; exact absurd h (by simp)
    | some s1 =>
      rw [hst] at h
      obtain ⟨a, b, c⟩ := traceStep_absent s s1 ev w hst hseen hh hf
      exact ih s1 a b c h

/-- C4 counterexample: with `Hub._remove_timeout` cancellations in the
model, the unamended tie clause fails.  A wait of deadline 5 registers
(`poll` with a timeout), leaves the heap without timer-firing (its fd
became ready, so `_run` cancelled the heap entry), then a second wait
with the same deadline registers — `_add_timeout`'s assertion passes,
the first is gone — and fires alone: the earlier-registered wait never
fires, so it does not fire first. -/
theorem C4_counterexample :
    traceExec [.add ⟨1, 0, some 5, .fdwait 3 1⟩, .remove ⟨1, 0, some 5, .fdwait 3 1⟩,
        .add ⟨2, 0, some 5, .sleepw⟩, .fire 5] tInit =
      some ⟨[], [⟨2, 0, some 5, .sleepw⟩], 5, [2, 1]⟩ ∧
    (⟨2, 0, some 5, .sleepw⟩ : Wait) ∈ ([⟨2, 0, some 5, .sleepw⟩] : List Wait) ∧
    (⟨1, 0, some 5, .fdwait 3 1⟩ : Wait) ∉
      ([⟨2, 0, some 5, .sleepw⟩] : List Wait) := by decide

/-- C4 (amended): delivered timer firings are in nondecreasing deadline
order (the fired sequence of any successful trace from the fresh timer
service is sorted by deadline), and equal-deadline ties among waits
that both fire are broken by insertion order: `_add_timeout`'s
assertion rejects an equal deadline while the first registrant is still
in the heap, so when the second registers the first has either already
fired or been cancelled by `_remove_timeout` — and a cancelled
registration never fires (see the counterexample) — hence whenever both
appear in the fired sequence the earlier-registered one precedes the
other. -/
theorem C4_fire_order (tr tr1 tr2 tr3 : List TEv) (w1 w2 : Wait) (sOrd s : TState)
    (hord : traceExec tr tInit = some sOrd)
    (heq : w1.expires = w2.expires)
    (hexec : traceExec (tr1 ++ .add w1 :: tr2 ++ .add w2 :: tr3) tInit = some s)
    (hfired1 : w1 ∈ s.fired) (hfired2 : w2 ∈ s.fired) :
    sOrd.fired.Pairwise (fun a b => eVal a ≤ eVal b) ∧
    ∃ f1 f2 f3, s.fired = f1 ++ w1 :: f2 ++ w2 :: f3 := by
  refine ⟨(traceExec_TInv tr tInit sOrd tInit_TInv hord).2.2.1, ?_⟩
  rw [traceExec_append] at hexec
  cases hAB : traceExec (tr1 ++ .add w1 :: tr2) tInit with
  | none => rw [hAB] at hexec; exact absurd hexec (by simp)
  | some sC =>
    rw [hAB] at hexec
    simp only [Option.some_bind, traceExec] at hexec
    have hinvC : TInv sC := traceExec_TInv _ tInit sC tInit_TInv hAB
    rw [traceExec_append] at hAB
    cases hA : traceExec tr1 tInit with
    | none => rw [hA] at hAB; exact absurd hAB (by simp)
    | some sA =>
      rw [hA] at hAB
      simp only [Option.some_bind, traceExec] at hAB
      cases hB : traceStep sA (.add w1) with
      | none => rw [hB] at hAB; exact absurd hAB (by simp)
      | some sB =>
        rw [hB] at hAB
        simp only [Option.some_bind] at hAB
        have hC : traceExec tr2 sB = some sC := hAB
        cases hD : traceStep sC (.add w2) with
        | none => rw [hD] at hexec; exact absurd hexec (by simp)
        | some sD =>
          rw [hD] at hexec
          simp only [Option.some_bind] at hexec
          obtain ⟨hBheap, hBfired, _, hBseen, _, _, _⟩ := traceStep_add_some sA w1 sB hB
          obtain ⟨hDheap, hDfired, _, hDseen, _, hDfresh, hDdup⟩ :=
            traceStep_add_some sC w2 sD hD
          obtain ⟨_, _, _, _, _, _, hC7⟩ := hinvC
          have hw1seenB : w1.wid ∈ sB.seen := by
            rw [hBseen]
            exact List.mem_cons_self _ _
          have hw1seenC : w1.wid ∈ sC.seen :=
            traceExec_seen_mono tr2 sB sC hC w1.wid hw1seenB
          have hw1notheap : w1 ∉ sC.heap := by
            intro hmem
            have := hDdup w1 hmem
            rw [(pyEq_iff w1 w2).mpr heq] at this
            exact absurd this (by simp)
          have hne12 : w1 ≠ w2 := by
            intro hc
            exact hDfresh (hc ▸ hw1seenC)
          have hw2notfC : w2 ∉ sC.fired := by
            intro hmem
            exact hDfresh (hC7 w2 (List.mem_append.mpr (Or.inr hmem)))
          have hw1fC : w1 ∈ sC.fired := by
            by_contra hnf
            have hw1nhD : w1 ∉ sD.heap := by
              rw [hDheap]
              intro hc
              rcases (heapPush_mem_iff sC.heap w2 w1).mp hc with hc | hc
              · exact hw1notheap hc
              · exact hne12 hc
            have hw1sD : w1.wid ∈ sD.seen := by
              rw [hDseen]
              exact List.mem_cons_of_mem _ hw1seenC
            have hw1nfD : w1 ∉ sD.fired := by
              rw [hDfired]
              exact hnf
            exact (traceExec_absent tr3 sD s w1 hw1sD hw1nhD hw1nfD hexec).2.2 hfired1
          obtain ⟨t, ht⟩ := traceExec_fired_front tr3 sD s hexec
          rw [hDfired] at ht
          have hw2t : w2 ∈ t := by
            rcases List.mem_append.mp (ht ▸ hfired2) with hc | hc
            · exact absurd hc hw2notfC
            · exact hc
          obtain ⟨f1, f2a, hsplit1⟩ := List.append_of_mem hw1fC
          obtain ⟨g1, g2, hsplit2⟩ := List.append_of_mem hw2t
          refine ⟨f1, f2a ++ g1, g2, ?_⟩
          rw [ht, hsplit1, hsplit2]
          simp [List.append_assoc]

/-- Witness for C4: two sleeps with equal deadline 5, the second
registered only after the first fired; a third wait of deadline 6 is
registered and cancelled in between; both sleeps fire, in registration
order. -/
theorem C4_fire_order_witness :
    (⟨[], [⟨1, 0, some 3, .sleepw⟩], 5, [1]⟩ : TState).fired.Pairwise
      (fun a b => eVal a ≤ eVal b) ∧
    ∃ f1 f2 f3,
      (⟨[], [⟨1, 0, some 5, .sleepw⟩, ⟨2, 0, some 5, .sleepw⟩], 7,
        [9, 2, 1]⟩ : TState).fired =
        f1 ++ ⟨1, 0, some 5, .sleepw⟩ :: f2 ++ ⟨2, 0, some 5, .sleepw⟩ :: f3 :=
  C4_fire_order [.add ⟨1, 0, some 3, .sleepw⟩, .fire 5] [] [.fire 5]
    [.add ⟨9, 0, some 6, .fdwait 3 1⟩, .remove ⟨9, 0, some 6, .fdwait 3 1⟩, .fire 7]
    ⟨1, 0, some 5, .sleepw⟩ ⟨2, 0, some 5, .sleepw⟩
    ⟨[], [⟨1, 0, some 3, .sleepw⟩], 5, [1]⟩
    ⟨[], [⟨1, 0, some 5, .sleepw⟩, ⟨2, 0, some 5, .sleepw⟩], 7, [9, 2, 1]⟩
    (by decide) rfl (by decide) (by decide) (by decide)

/-- Helper: with all three structures empty the loop returns at once. -/
theorem hubRun_idle (sel : List Wait → Option ℤ → SelRes) (f : Nat) (st : St)
    (h1 : st.fdwaits = []) (h2 : st.tasks = []) (h3 : st.timeouts = []) :
    hubRun sel (f+1) st = .ok st := by
  unfold hubRun
  rw [if_pos ⟨h1, h2, h3⟩]

/-- Helper: an empty run queue drains to the same state. -/
theorem runTasks_nil (st : St) (h : st.tasks = []) : runTasks st = .ok st := by
  simp [runTasks, h]

/-- Helper: firing the sole expired heap entry, a PopWait that is the
only record in its deque. -/
theorem handleTimeouts_single_popwait (q0 : QueueRec) (now0 : ℤ) (nid : Nat)
    (w : Wait) (e : ℤ) (hw : w.expires = some e) (hk : w.kind = .popwait)
    (hdq : q0.pop_waits = [w]) (hexp : e ≤ now0) :
    handleTimeouts 2 ⟨[], [w], [], q0, now0, nid⟩ =
      .exit (.thrownTimeout w ⟨[], [], [], { q0 with pop_waits := [] }, now0, nid⟩) := by
  simp only [handleTimeouts]
  rw [if_pos (by simp only [eVal, hw, Option.getD_some]; omega)]
  simp only [fireTimeoutStep, hk]
  simp only [runTasks, List.nil_append]
  rw [show (⟨[], [], [] ++ [Runner.timeoutRunner w], q0, now0, nid⟩ : St).q.pop_waits =
    [w] from hdq]
  simp [removeFirstPyEq, pyEq_self, hk]

/-- Helper: firing the sole expired heap entry, an AppendWait that is
the only record in its deque. -/
theorem handleTimeouts_single_appendwait (q0 : QueueRec) (now0 : ℤ) (nid : Nat)
    (w : Wait) (e : ℤ) (hw : w.expires = some e) (hk : w.kind = .appendwait)
    (hdq : q0.append_waits = [w]) (hexp : e ≤ now0) :
    handleTimeouts 2 ⟨[], [w], [], q0, now0, nid⟩ =
      .exit (.thrownTimeout w ⟨[], [], [], { q0 with append_waits := [] }, now0, nid⟩) := by
  simp only [handleTimeouts]
  rw [if_pos (by simp only [eVal, hw, Option.getD_some]; omega)]
  simp only [fireTimeoutStep, hk]
  simp only [runTasks, List.nil_append]
  rw [show (⟨[], [], [] ++ [Runner.timeoutRunner w], q0, now0, nid⟩ : St).q.append_waits =
    [w] from hdq]
  simp [removeFirstPyEq, pyEq_self, hk]

/-- Helper: an unexpired heap root makes `_handle_timeouts` report the
remaining time. -/
theorem handleTimeouts_unexpired (fuel : Nat) (st : St) (w : Wait) (rest : List Wait)
    (hts : st.timeouts = w :: rest) (h : ¬ (eVal w - st.now ≤ 0)) :
    handleTimeouts (fuel+1) st = .ret (some (eVal w - st.now)) st := by
  simp only [handleTimeouts, hts]
  rw [if_neg h]

/-- Helper: a no-fd loop iteration with a nonempty heap returns what
`_handle_timeouts` exits with. -/
theorem hubRun_timer_exit (sel : List Wait → Option ℤ → SelRes) (f : Nat) (st : St)
    (r : RunRes)
    (hfd : st.fdwaits = []) (htk : st.tasks = []) (hto : st.timeouts ≠ [])
    (hht : handleTimeouts (st.timeouts.length + 1) st = .exit r) :
    hubRun sel (f+1) st = r := by
  unfold hubRun
  rw [if_neg (by simp [hto])]
  simp only [runTasks_nil st htk]
  rw [if_neg (by simp [hfd])]
  rw [if_pos hto]
  simp only [hht]

/-- Helper: a no-fd loop iteration whose heap root is unexpired sleeps
until the root's deadline and loops. -/
theorem hubRun_timer_sleep (sel : List Wait → Option ℤ → SelRes) (f : Nat) (st : St)
    (t : ℤ) (st2 : St)
    (hfd : st.fdwaits = []) (htk : st.tasks = []) (hto : st.timeouts ≠ [])
    (hht : handleTimeouts (st.timeouts.length + 1) st = .ret (some t) st2) :
    hubRun sel (f+1) st = hubRun sel f { st2 with now := st2.now + t } := by
  conv_lhs => rw [hubRun]
  rw [if_neg (by simp [hto])]
  simp only [runTasks_nil st htk]
  rw [if_neg (by simp [hfd])]
  rw [if_pos hto]
  simp only [hht]

/-- Helper: a hub run from a state whose only registration is a single
deadline PopWait (the sole record of its deque) fires it: the clock
advances to the deadline if needed and `Timeout` is thrown into the
task, the heap and deque left empty. -/
theorem hubRun_single_popwait (f : Nat) (q0 : QueueRec) (now0 : ℤ) (nid : Nat)
    (w : Wait) (e : ℤ) (hw : w.expires = some e) (hk : w.kind = .popwait)
    (hdq : q0.pop_waits = [w]) :
    hubRun sel0 (f+2) ⟨[], [w], [], q0, now0, nid⟩ =
      .thrownTimeout w ⟨[], [], [], { q0 with pop_waits := [] }, max now0 e, nid⟩ := by
  by_cases hexp : e ≤ now0
  · rw [max_eq_left hexp]
    exact hubRun_timer_exit sel0 (f+1) _ _ rfl rfl (by simp)
      (handleTimeouts_single_popwait q0 now0 nid w e hw hk hdq hexp)
  · have hexp2 : ¬ (eVal w - (⟨[], [w], [], q0, now0, nid⟩ : St).now ≤ 0) := by
      simp only [eVal, hw, Option.getD_some]
      omega
    have hstep := hubRun_timer_sleep sel0 (f+1) ⟨[], [w], [], q0, now0, nid⟩
      (eVal w - now0) ⟨[], [w], [], q0, now0, nid⟩ rfl rfl (by simp)
      (handleTimeouts_unexpired 1 _ w [] rfl hexp2)
    rw [hstep]
    have harith : now0 + (eVal w - now0) = e := by
      simp only [eVal, hw, Option.getD_some]
      omega
    rw [show ({ (⟨[], [w], [], q0, now0, nid⟩ : St) with
        now := (⟨[], [w], [], q0, now0, nid⟩ : St).now + (eVal w - now0) } : St) =
      ⟨[], [w], [], q0, e, nid⟩ from by rw [show (⟨[], [w], [], q0, now0, nid⟩ : St).now +
        (eVal w - now0) = e from harith]]
    rw [max_eq_right (by omega : now0 ≤ e)]
    exact hubRun_timer_exit sel0 f _ _ rfl rfl (by simp)
      (handleTimeouts_single_popwait q0 e nid w e hw hk hdq (le_refl e))

/-- Helper: the AppendWait counterpart of the previous lemma. -/
theorem hubRun_single_appendwait (f : Nat) (q0 : QueueRec) (now0 : ℤ) (nid : Nat)
    (w : Wait) (e : ℤ) (hw : w.expires = some e) (hk : w.kind = .appendwait)
    (hdq : q0.append_waits = [w]) :
    hubRun sel0 (f+2) ⟨[], [w], [], q0, now0, nid⟩ =
      .thrownTimeout w ⟨[], [], [], { q0 with append_waits := [] }, max now0 e, nid⟩ := by
  by_cases hexp : e ≤ now0
  · rw [max_eq_left hexp]
    exact hubRun_timer_exit sel0 (f+1) _ _ rfl rfl (by simp)
      (handleTimeouts_single_appendwait q0 now0 nid w e hw hk hdq hexp)
  · have hexp2 : ¬ (eVal w - (⟨[], [w], [], q0, now0, nid⟩ : St).now ≤ 0) := by
      simp only [eVal, hw, Option.getD_some]
      omega
    have hstep := hubRun_timer_sleep sel0 (f+1) ⟨[], [w], [], q0, now0, nid⟩
      (eVal w - now0) ⟨[], [w], [], q0, now0, nid⟩ rfl rfl (by simp)
      (handleTimeouts_unexpired 1 _ w [] rfl hexp2)
    rw [hstep]
    have harith : now0 + (eVal w - now0) = e := by
      simp only [eVal, hw, Option.getD_some]
      omega
    rw [show ({ (⟨[], [w], [], q0, now0, nid⟩ : St) with
        now := (⟨[], [w], [], q0, now0, nid⟩ : St).now + (eVal w - now0) } : St) =
      ⟨[], [w], [], q0, e, nid⟩ from by rw [show (⟨[], [w], [], q0, now0, nid⟩ : St).now +
        (eVal w - now0) = e from harith]]
    rw [max_eq_right (by omega : now0 ≤ e)]
    exact hubRun_timer_exit sel0 f _ _ rfl rfl (by simp)
      (handleTimeouts_single_appendwait q0 e nid w e hw hk hdq (le_refl e))

/-- Helper: one command of a timed-append single-task program run from
an invariant state either completes keeping the invariant, or aborts by
`Timeout` or IndexError with the queue still within its bound. -/
theorem stepCmd_cases (c : Cmd) (k : Nat) (st : St)
    (hinv : SInv k st) (hta : appendsTimed c) :
    (∃ s v, stepCmd c st = .ok s v ∧ SInv k s) ∨
    (∃ s, stepCmd c st = .timeout s ∧ s.q.queue.length ≤ k) ∨
    (∃ s, stepCmd c st = .indexError s ∧ s.q.queue.length ≤ k) := by
  obtain ⟨hfd, htk, hto, haw, hpw, hml, hlen⟩ := hinv
  obtain ⟨fdw, tos, tks, q0, now0, nid⟩ := st
  obtain ⟨items, ml, aw, pw⟩ := q0
  simp only at hfd htk hto haw hpw hml hlen
  subst hfd htk hto haw hpw hml
  cases c with
  | append v tmo =>
    obtain ⟨t, rfl⟩ : ∃ t, tmo = some t := by
      cases tmo with
      | none => exact absurd hta (by simp [appendsTimed])
      | some t => exact ⟨t, rfl⟩
    by_cases hfull : items.length ≥ k
    · right; left
      refine ⟨⟨[], [], [], ⟨items, some k, [], []⟩, max now0 (now0 + t), nid + 1⟩, ?_, hlen⟩
      show Qappend ⟨[], [], [], ⟨items, some k, [], []⟩, now0, nid⟩ v (some t) 9 = _
      unfold Qappend
      rw [if_pos (by simp [Qfull]; omega)]
      have hwp : waitForPop ⟨[], [], [], ⟨items, some k, [], []⟩, now0, nid⟩ (some t) 9 =
          some (⟨nid, 0, some (now0 + t), .popwait⟩,
            .thrownTimeout ⟨nid, 0, some (now0 + t), .popwait⟩
              ⟨[], [], [], ⟨items, some k, [], []⟩, max now0 (now0 + t), nid + 1⟩) := by
        show some ((⟨nid, 0, some (now0 + t), .popwait⟩ : Wait),
          hubRun sel0 9 (⟨[], [⟨nid, 0, some (now0 + t), .popwait⟩], [],
            ⟨items, some k, [], [] ++ [⟨nid, 0, some (now0 + t), .popwait⟩]⟩,
            now0, nid + 1⟩ : St)) = _
        rw [List.nil_append]
        rw [hubRun_single_popwait 7 ⟨items, some k, [], [⟨nid, 0, some (now0 + t), .popwait⟩]⟩
          now0 (nid + 1) ⟨nid, 0, some (now0 + t), .popwait⟩ (now0 + t) rfl rfl rfl]
      rw [hwp]
    · left
      refine ⟨⟨[], [], [], ⟨items ++ [v], some k, [], []⟩, now0, nid⟩, none, ?_, ?_⟩
      · show Qappend ⟨[], [], [], ⟨items, some k, [], []⟩, now0, nid⟩ v (some t) 9 = _
        unfold Qappend
        rw [if_neg (by simp [Qfull]; omega)]
        rfl
      · refine ⟨rfl, rfl, rfl, rfl, rfl, rfl, ?_⟩
        simp only [List.length_append, List.length_singleton]
        omega
  | appendleft v tmo =>
    obtain ⟨t, rfl⟩ : ∃ t, tmo = some t := by
      cases tmo with
      | none => exact absurd hta (by simp [appendsTimed])
      | some t => exact ⟨t, rfl⟩
    by_cases hfull : items.length ≥ k
    · right; left
      refine ⟨⟨[], [], [], ⟨items, some k, [], []⟩, max now0 (now0 + t), nid + 1⟩, ?_, hlen⟩
      show Qappendleft ⟨[], [], [], ⟨items, some k, [], []⟩, now0, nid⟩ v (some t) 9 = _
      unfold Qappendleft
      rw [if_pos (by simp [Qfull]; omega)]
      have hwp : waitForPop ⟨[], [], [], ⟨items, some k, [], []⟩, now0, nid⟩ (some t) 9 =
          some (⟨nid, 0, some (now0 + t), .popwait⟩,
            .thrownTimeout ⟨nid, 0, some (now0 + t), .popwait⟩
              ⟨[], [], [], ⟨items, some k, [], []⟩, max now0 (now0 + t), nid + 1⟩) := by
        show some ((⟨nid, 0, some (now0 + t), .popwait⟩ : Wait),
          hubRun sel0 9 (⟨[], [⟨nid, 0, some (now0 + t), .popwait⟩], [],
            ⟨items, some k, [], [] ++ [⟨nid, 0, some (now0 + t), .popwait⟩]⟩,
            now0, nid + 1⟩ : St)) = _
        rw [List.nil_append]
        rw [hubRun_single_popwait 7 ⟨items, some k, [], [⟨nid, 0, some (now0 + t), .popwait⟩]⟩
          now0 (nid + 1) ⟨nid, 0, some (now0 + t), .popwait⟩ (now0 + t) rfl rfl rfl]
      rw [hwp]
    · left
      refine ⟨⟨[], [], [], ⟨v :: items, some k, [], []⟩, now0, nid⟩, none, ?_, ?_⟩
      · show Qappendleft ⟨[], [], [], ⟨items, some k, [], []⟩, now0, nid⟩ v (some t) 9 = _
        unfold Qappendleft
        rw [if_neg (by simp [Qfull]; omega)]
        rfl
      · refine ⟨rfl, rfl, rfl, rfl, rfl, rfl, ?_⟩
        simp only [List.length_cons]
        omega
  | pop tmo =>
    by_cases hq : items = []
    · subst hq
      cases tmo with
      | none =>
        right; right
        refine ⟨⟨[], [], [], ⟨[], some k, [⟨nid, 0, none, .appendwait⟩], []⟩, now0, nid + 1⟩,
          ?_, by simp⟩
        show Qpop ⟨[], [], [], ⟨[], some k, [], []⟩, now0, nid⟩ none 9 = _
        unfold Qpop
        rw [if_pos rfl]
        have hwa : waitForAppend ⟨[], [], [], ⟨[], some k, [], []⟩, now0, nid⟩ none 9 =
            some (⟨nid, 0, none, .appendwait⟩,
              .ok ⟨[], [], [], ⟨[], some k, [⟨nid, 0, none, .appendwait⟩], []⟩, now0, nid + 1⟩) := by
          show some ((⟨nid, 0, none, .appendwait⟩ : Wait),
            hubRun sel0 9 (⟨[], [], [],
              ⟨[], some k, [] ++ [⟨nid, 0, none, .appendwait⟩], []⟩, now0, nid + 1⟩ : St)) = _
          rw [List.nil_append]
          rw [hubRun_idle sel0 8 _ rfl rfl rfl]
        rw [hwa]
        rfl
      | some t =>
        right; left
        refine ⟨⟨[], [], [], ⟨[], some k, [], []⟩, max now0 (now0 + t), nid + 1⟩, ?_, by simp⟩
        show Qpop ⟨[], [], [], ⟨[], some k, [], []⟩, now0, nid⟩ (some t) 9 = _
        unfold Qpop
        rw [if_pos rfl]
        have hwa : waitForAppend ⟨[], [], [], ⟨[], some k, [], []⟩, now0, nid⟩ (some t) 9 =
            some (⟨nid, 0, some (now0 + t), .appendwait⟩,
              .thrownTimeout ⟨nid, 0, some (now0 + t), .appendwait⟩
                ⟨[], [], [], ⟨[], some k, [], []⟩, max now0 (now0 + t), nid + 1⟩) := by
          show some ((⟨nid, 0, some (now0 + t), .appendwait⟩ : Wait),
            hubRun sel0 9 (⟨[], [⟨nid, 0, some (now0 + t), .appendwait⟩], [],
              ⟨[], some k, [] ++ [⟨nid, 0, some (now0 + t), .appendwait⟩], []⟩,
              now0, nid + 1⟩ : St)) = _
          rw [List.nil_append]
          rw [hubRun_single_appendwait 7 ⟨[], some k, [⟨nid, 0, some (now0 + t), .appendwait⟩], []⟩
            now0 (nid + 1) ⟨nid, 0, some (now0 + t), .appendwait⟩ (now0 + t) rfl rfl rfl]
        rw [hwa]
    · left
      cases hit : items.getLast? with
      | none => exact absurd (List.getLast?_eq_none_iff.mp hit) hq
      | some item =>
        refine ⟨⟨[], [], [], ⟨items.dropLast, some k, [], []⟩, now0, nid⟩, some item, ?_, ?_⟩
        · show Qpop ⟨[], [], [], ⟨items, some k, [], []⟩, now0, nid⟩ tmo 9 = _
          unfold Qpop
          rw [if_neg hq]
          unfold QpopFinish
          rw [show (⟨[], [], [], ⟨items, some k, [], []⟩, now0, nid⟩ : St).q.queue.getLast? =
            some item from hit]
          rfl
        · refine ⟨rfl, rfl, rfl, rfl, rfl, rfl, ?_⟩
          simp only [List.length_dropLast]
          omega
  | popleft tmo =>
    by_cases hq : items = []
    · subst hq
      cases tmo with
      | none =>
        right; right
        refine ⟨⟨[], [], [], ⟨[], some k, [⟨nid, 0, none, .appendwait⟩], []⟩, now0, nid + 1⟩,
          ?_, by simp⟩
        show Qpopleft ⟨[], [], [], ⟨[], some k, [], []⟩, now0, nid⟩ none 9 = _
        unfold Qpopleft
        rw [if_pos rfl]
        have hwa : waitForAppend ⟨[], [], [], ⟨[], some k, [], []⟩, now0, nid⟩ none 9 =
            some (⟨nid, 0, none, .appendwait⟩,
              .ok ⟨[], [], [], ⟨[], some k, [⟨nid, 0, none, .appendwait⟩], []⟩, now0, nid + 1⟩) := by
          show some ((⟨nid, 0, none, .appendwait⟩ : Wait),
            hubRun sel0 9 (⟨[], [], [],
              ⟨[], some k, [] ++ [⟨nid, 0, none, .appendwait⟩], []⟩, now0, nid + 1⟩ : St)) = _
          rw [List.nil_append]
          rw [hubRun_idle sel0 8 _ rfl rfl rfl]
        rw [hwa]
        rfl
      | some t =>
        right; left
        refine ⟨⟨[], [], [], ⟨[], some k, [], []⟩, max now0 (now0 + t), nid + 1⟩, ?_, by simp⟩
        show Qpopleft ⟨[], [], [], ⟨[], some k, [], []⟩, now0, nid⟩ (some t) 9 = _
        unfold Qpopleft
        rw [if_pos rfl]
        have hwa : waitForAppend ⟨[], [], [], ⟨[], some k, [], []⟩, now0, nid⟩ (some t) 9 =
            some (⟨nid, 0, some (now0 + t), .appendwait⟩,
              .thrownTimeout ⟨nid, 0, some (now0 + t), .appendwait⟩
                ⟨[], [], [], ⟨[], some k, [], []⟩, max now0 (now0 + t), nid + 1⟩) := by
          show some ((⟨nid, 0, some (now0 + t), .appendwait⟩ : Wait),
            hubRun sel0 9 (⟨[], [⟨nid, 0, some (now0 + t), .appendwait⟩], [],
              ⟨[], some k, [] ++ [⟨nid, 0, some (now0 + t), .appendwait⟩], []⟩,
              now0, nid + 1⟩ : St)) = _
          rw [List.nil_append]
          rw [hubRun_single_appendwait 7 ⟨[], some k, [⟨nid, 0, some (now0 + t), .appendwait⟩], []⟩
            now0 (nid + 1) ⟨nid, 0, some (now0 + t), .appendwait⟩ (now0 + t) rfl rfl rfl]
        rw [hwa]
    · left
      cases items with
      | nil => exact absurd rfl hq
      | cons item rest =>
        refine ⟨⟨[], [], [], ⟨rest, some k, [], []⟩, now0, nid⟩, some item, ?_, ?_⟩
        · show Qpopleft ⟨[], [], [], ⟨item :: rest, some k, [], []⟩, now0, nid⟩ tmo 9 = _
          unfold Qpopleft
          rw [if_neg (by simp)]
          rfl
        · refine ⟨rfl, rfl, rfl, rfl, rfl, rfl, ?_⟩
          simp only [List.length_cons] at hlen
          show rest.length ≤ k
          omega
  | clear =>
    left
    refine ⟨⟨[], [], [], ⟨[], some k, [], []⟩, now0, nid⟩, none, rfl, ?_⟩
    exact ⟨rfl, rfl, rfl, rfl, rfl, rfl, by simp⟩

/-- Helper: running a program of all-timed-append commands from an
invariant state keeps every observed queue length within the bound. -/
theorem runCmds_bound (prog : List Cmd) (k : Nat) (st : St)
    (hinv : SInv k st) (hta : ∀ c ∈ prog, appendsTimed c) :
    ∀ n ∈ (runCmds prog st).2.2, n ≤ k := by
  induction prog generalizing st with
  | nil =>
    intro n hn
    simp [runCmds] at hn
  | cons c cs ih =>
    rcases stepCmd_cases c k st hinv (hta c (by simp)) with
      ⟨s, v, hstep, hs⟩ | ⟨s, hstep, hs⟩ | ⟨s, hstep, hs⟩
    · intro n hn
      unfold runCmds at hn
      rw [hstep] at hn
      have hn2 : n ∈ s.q.queue.length :: (runCmds cs s).2.2 := hn
      rcases List.mem_cons.mp hn2 with rfl | hn3
      · exact hs.2.2.2.2.2.2
      · exact ih s hs (fun d hd => hta d (List.mem_cons_of_mem c hd)) n hn3
    · intro n hn
      unfold runCmds at hn
      rw [hstep] at hn
      have hn2 : n ∈ [s.q.queue.length] := hn
      rcases List.mem_singleton.mp hn2 with rfl
      exact hs
    · intro n hn
      unfold runCmds at hn
      rw [hstep] at hn
      have hn2 : n ∈ [s.q.queue.length] := hn
      rcases List.mem_singleton.mp hn2 with rfl
      exact hs

/-- C5 (amended): for `Queue(max_len=k)`, every program of append /
appendleft / pop / popleft / clear operations issued by the hub-creating
task in which each append carries a timeout keeps `len(queue) ≤ k` at
every point observable by user code (lengths are naturals, so
`0 ≤ len(queue)` holds throughout); a timed-out append leaves the queue
untouched.  (The unamended claim is refuted by `C5_counterexample`: an
untimed append that finds the queue full parks a PopWait, but the wait
deques are not in the loop guard, so the idle hub returns at once and the
resumed append appends unconditionally, reaching `k + 1`.) -/
theorem C5_amended_bound (prog : List Cmd) (k : Nat)
    (hta : ∀ c ∈ prog, appendsTimed c) :
    ∀ n ∈ (runCmds prog (st0 (some k))).2.2, n ≤ k :=
  runCmds_bound prog k (st0 (some k))
    ⟨rfl, rfl, rfl, rfl, rfl, rfl, Nat.zero_le k⟩ hta

/-- Witness for `C5_amended_bound` on a concrete program: a bound-1
queue, one append that fits and one timed append that finds it full. -/
theorem C5_amended_bound_witness :
    (∀ c ∈ [Cmd.append 10 (some 0), Cmd.append 20 (some 0)], appendsTimed c) ∧
    ∀ n ∈ (runCmds [Cmd.append 10 (some 0), Cmd.append 20 (some 0)]
        (st0 (some 1))).2.2, n ≤ 1 :=
  ⟨by simp [appendsTimed], C5_amended_bound _ 1 (by simp [appendsTimed])⟩
